import Mathlib

/-!
# sqsmv: the concurrent queue-to-queue transfer engine

A shallow embedding of `main.go` (package `main` of `frodeaa/sqsmv`).

* `main` builds one `ReceiveMessageInput`, starts `clients` goroutines running
  `transferMessages` and waits for them on a `sync.WaitGroup`.
* `transferMessages` loops: fetch a batch, check the limit, check the
  two-empty-fetches rule, start one goroutine per message, join them.
* each per-message goroutine runs filter, limit re-check, send, count, delete.

Go `int` and `int64` are 64 bit two's complement integers; they are embedded as
`Int`, and the two arithmetic operations of the source, `limit-1` and
`messagesMoved.Add(1)`, are followed by `wrapInt64`.

The goroutines of one batch share `messagesMoved` and run concurrently; they
are embedded as a small-step machine, one atomic step per shared read, shared
write or call of the SQS client, driven by a schedule: every interleaving of a
batch is the run of some schedule.  The calls of the SQS client
(`ReceiveMessage`, `SendMessage`, `DeleteMessage`), the increments of the
counter and the log lines are recorded in a trace, in the order they happen;
what the calls return is an input of the model.

One worker is embedded at a time, started on an arbitrary value of the counter.
Flag parsing, the session and the `-version` flag are left out.
-/

namespace Sqsmv

/-! ## Machine integers -/

/-- Two's complement wrap-around of a 64 bit signed integer. -/
def wrapInt64 (x : Int) : Int :=
  (x + 9223372036854775808) % 18446744073709551616 - 9223372036854775808

/-! ## Data model (the parts of the SQS API the program touches) -/

/-- The `sqs.MessageAttributeValue` of the SDK. -/
structure MessageAttributeValue where
  dataType : String
  stringValue : Option String
  binaryValue : Option (List Nat)
  deriving DecidableEq, Repr

/-- The `sqs.Message` of the SDK: the fields `transferMessages` reads.  Every
message returned by `ReceiveMessage` carries a body and a receipt handle. -/
structure Message where
  body : String
  messageAttributes : List (String × MessageAttributeValue)
  receiptHandle : String
  deriving DecidableEq, Repr

/-- The `sqs.ReceiveMessageInput` of the SDK: the fields `main` sets.  A field
left unset is `none`. -/
structure ReceiveMessageInput where
  queueUrl : String
  maxNumberOfMessages : Option Int
  waitTimeSeconds : Option Int
  messageAttributeNames : List String
  visibilityTimeout : Option Int
  deriving DecidableEq, Repr

/-- The `sqs.SendMessageInput` built at lines 138-142. -/
structure SendMessageInput where
  messageAttributes : List (String × MessageAttributeValue)
  messageBody : String
  queueUrl : String
  deriving DecidableEq, Repr

/-- The `sqs.DeleteMessageInput` built at lines 158-161. -/
structure DeleteMessageInput where
  queueUrl : String
  receiptHandle : String
  deriving DecidableEq, Repr

/-! ## `main` -/

/-- The command line flags of `main` (lines 32-37) after `flag.Parse`. -/
structure Flags where
  src : String
  dest : String
  clients : Int
  limit : Int
  includePattern : String
  version : Bool

/-- The flag defaults of lines 32-37. -/
def defaultFlags : Flags :=
  { src := "", dest := "", clients := 1, limit := -1, includePattern := "", version := false }

/-- The fetch request `rmin` of `main`, lines 68-84. -/
def receiveInput (f : Flags) : ReceiveMessageInput :=
  let maxMessages : Int := 10
  let waitTime : Int := 0
  let messageAttributeNames := ["All"]
  let rmin : ReceiveMessageInput :=
    { queueUrl := f.src
      maxNumberOfMessages := some maxMessages
      waitTimeSeconds := some waitTime
      messageAttributeNames := messageAttributeNames
      visibilityTimeout := none }
  if f.includePattern != "" then
    let visibilityTimeout : Int := 120
    { rmin with visibilityTimeout := some visibilityTimeout }
  else
    rmin

/-- A `sync.WaitGroup`: its counter. -/
structure WaitGroup where
  counter : Int
  deriving DecidableEq, Repr

/-- The method `WaitGroup.Add`: adds `delta` to the counter; it panics (`none`)
when the counter goes negative. -/
def WaitGroup.add (wg : WaitGroup) (delta : Int) : Option WaitGroup :=
  if wg.counter + delta < 0 then none else some { counter := wg.counter + delta }

/-- The method `WaitGroup.Done`, which is `Add(-1)`. -/
def WaitGroup.done (wg : WaitGroup) : Option WaitGroup :=
  wg.add (-1)

/-- Whether `WaitGroup.Wait` returns: it blocks until the counter is zero. -/
def WaitGroup.waitReturns (wg : WaitGroup) : Bool :=
  wg.counter == 0

/-- The state of the launch loop of `main`: the outer wait group and the number
of `transferMessages` goroutines started so far. -/
structure Launch where
  wg : WaitGroup
  started : Nat
  deriving DecidableEq, Repr

/-- One pass of the loop body of lines 89-90 with loop variable `i`:
`wg.Add(i)` and then `go transferMessages(...)`. -/
def launchBody (st : Option Launch) (i : Nat) : Option Launch :=
  match st with
  | none => none
  | some l =>
    match l.wg.add (i : Int) with
    | none => none
    | some wg => some { wg := wg, started := l.started + 1 }

/-- The launch loop of `main`, lines 86-91: `for i := 1; i <= clients; i++`. -/
def launchWorkers (clients : Int) : Option Launch :=
  (List.range' 1 clients.toNat).foldl launchBody (some { wg := { counter := 0 }, started := 0 })

/-- The deferred `wgOuter.Done()` of line 102, run once by each of `n` returning
workers. -/
def workersReturn : Nat → WaitGroup → Option WaitGroup
  | 0, wg => some wg
  | n + 1, wg =>
    match wg.done with
    | none => none
    | some wg1 => workersReturn n wg1

/-- Lines 86-93 of `main` once every started worker has returned: the outer wait
group after the launch loop and one `Done` per started worker.  `none` is a
panic of the wait group. -/
def waitGroupAfterRun (clients : Int) : Option WaitGroup :=
  match launchWorkers clients with
  | none => none
  | some l => workersReturn l.started l.wg

/-- Lines 92-93 of `main` once every started worker has returned: the line
`all done, moved N messages` when `wg.Wait()` returns, `none` when it blocks for
ever (or the wait group panicked). -/
def finalReport (clients : Int) (messagesMoved : Int) : Option String :=
  match waitGroupAfterRun clients with
  | none => none
  | some wg =>
    if wg.waitReturns then some ("all done, moved " ++ toString messagesMoved ++ " messages")
    else none

/-! ## `transferMessages` -/

/-- What `transferMessages` is called with (line 97): the fetch request, the
destination queue, the limit and the compiled pattern.  The compiled
`regexp.Regexp` is embedded by its `MatchString` method. -/
structure Worker where
  rmin : ReceiveMessageInput
  dest : String
  limit : Int
  includeRegex : String → Bool

/-- The arguments `main` passes to each `transferMessages` at line 90: the fetch
request, the destination queue, the limit and the compiled pattern. -/
def mainWorker (f : Flags) (includeRegex : String → Bool) : Worker :=
  { rmin := receiveInput f
    dest := f.dest
    limit := f.limit
    includeRegex := includeRegex }

/-- An effect of the program on the world or on the shared counter, in the order
it happens.  `g` is the index, in its batch, of the message whose goroutine
causes the effect. -/
inductive Event where
  | receive (rmin : ReceiveMessageInput)
  | send (g : Nat) (smi : SendMessageInput)
  | add (g : Nat)
  | delete (g : Nat) (dmi : DeleteMessageInput)
  | logLine (g : Option Nat) (line : String)
  deriving DecidableEq, Repr

/-- The goroutine an event belongs to (`none`: the worker loop itself). -/
def Event.issuer : Event → Option Nat
  | .receive _ => none
  | .send g _ => some g
  | .add g => some g
  | .delete g _ => some g
  | .logLine g _ => g

/-- The state shared by the goroutines: the atomic counter `messagesMoved` and
the trace of effects so far. -/
structure Shared where
  messagesMoved : Int
  trace : List Event
  deriving DecidableEq, Repr

/-- Appends one event to the trace. -/
def Shared.emit (sh : Shared) (e : Event) : Shared :=
  { sh with trace := sh.trace ++ [e] }

/-- The call `messagesMoved.Add(1)` of line 155 on the value of the counter. -/
def bump (c : Int) : Int :=
  wrapInt64 (c + 1)

/-- The test of lines 112 and 144:
`limit != -1 && int(messagesMoved.Load()) > limit-1`. -/
def limitReached (limit : Int) (moved : Int) : Bool :=
  limit != -1 && decide (moved > wrapInt64 (limit - 1))

/-- The request of lines 138-142. -/
def sendInput (w : Worker) (m : Message) : SendMessageInput :=
  { messageAttributes := m.messageAttributes
    messageBody := m.body
    queueUrl := w.dest }

/-- The request of lines 158-161. -/
def deleteInput (w : Worker) (m : Message) : DeleteMessageInput :=
  { queueUrl := w.rmin.queueUrl
    receiptHandle := m.receiptHandle }

/-- Where a per-message goroutine (lines 130-168) stands: before the filter
(line 133), before the limit re-check (144), before `SendMessage` (148), before
`messagesMoved.Add(1)` (155), before `DeleteMessage` (163), or returned. -/
inductive Pc where
  | filter
  | limitCheck
  | send
  | add
  | delete
  | done
  deriving DecidableEq, Repr

/-- A per-message goroutine: its index in the batch, its message, its position. -/
structure Goroutine where
  id : Nat
  m : Message
  pc : Pc
  deriving DecidableEq, Repr

/-- What the queue service answers to the calls of one batch: the error of
`SendMessage` and of `DeleteMessage` for the message of each index (`none`:
the call succeeded). -/
structure Answers where
  sendErr : Nat → Option String
  deleteErr : Nat → Option String

/-- One atomic step of a per-message goroutine, lines 131-167. -/
def pipeStep (w : Worker) (a : Answers) (g : Goroutine) (sh : Shared) : Goroutine × Shared :=
  match g.pc with
  | .filter =>
    if !w.includeRegex g.m.body then ({ g with pc := .done }, sh)
    else ({ g with pc := .limitCheck }, sh)
  | .limitCheck =>
    if limitReached w.limit sh.messagesMoved then ({ g with pc := .done }, sh)
    else ({ g with pc := .send }, sh)
  | .send =>
    let sh1 := sh.emit (.send g.id (sendInput w g.m))
    match a.sendErr g.id with
    | some err =>
      ({ g with pc := .done },
        sh1.emit (.logLine (some g.id) ("ERROR sending message to destination " ++ err)))
    | none => ({ g with pc := .add }, sh1)
  | .add =>
    ({ g with pc := .delete },
      { messagesMoved := bump sh.messagesMoved, trace := sh.trace ++ [.add g.id] })
  | .delete =>
    let sh1 := sh.emit (.delete g.id (deleteInput w g.m))
    match a.deleteErr g.id with
    | some err =>
      ({ g with pc := .done },
        sh1.emit (.logLine (some g.id)
          ("ERROR dequeueing message ID " ++ g.m.receiptHandle ++ " : " ++ err)))
    | none => ({ g with pc := .done }, sh1)
  | .done => (g, sh)

/-- The goroutines started by the loop of lines 129-169, numbered from `k`. -/
def spawnFrom : Nat → List Message → List Goroutine
  | _, [] => []
  | k, m :: ms => { id := k, m := m, pc := .filter } :: spawnFrom (k + 1) ms

/-- Lets the goroutine at position `i` of the batch take one step (no goroutine
at that position: nothing happens). -/
def stepAt (w : Worker) (a : Answers) : Nat → List Goroutine → Shared → List Goroutine × Shared
  | _, [], sh => ([], sh)
  | 0, g :: gs, sh => ((pipeStep w a g sh).1 :: gs, (pipeStep w a g sh).2)
  | i + 1, g :: gs, sh => (g :: (stepAt w a i gs sh).1, (stepAt w a i gs sh).2)

/-- Runs the goroutines of a batch in the order a schedule gives. -/
def runSchedule (w : Worker) (a : Answers) : List Nat → List Goroutine → Shared → List Goroutine × Shared
  | [], gs, sh => (gs, sh)
  | i :: sched, gs, sh => runSchedule w a sched (stepAt w a i gs sh).1 (stepAt w a i gs sh).2

/-- Runs one goroutine until it returns: a goroutine returns within five steps. -/
def finish (w : Worker) (a : Answers) (g : Goroutine) (sh : Shared) : Goroutine × Shared :=
  let r1 := pipeStep w a g sh
  let r2 := pipeStep w a r1.1 r1.2
  let r3 := pipeStep w a r2.1 r2.2
  let r4 := pipeStep w a r3.1 r3.2
  pipeStep w a r4.1 r4.2

/-- Runs every goroutine that has not returned yet until it returns, one after
another in the order of the batch. -/
def drain (w : Worker) (a : Answers) : List Goroutine → Shared → List Goroutine × Shared
  | [], sh => ([], sh)
  | g :: gs, sh =>
    ((finish w a g sh).1 :: (drain w a gs (finish w a g sh).2).1,
      (drain w a gs (finish w a g sh).2).2)

/-- Lines 126-172: one goroutine per message of the batch, run concurrently and
joined by `wg.Wait()`.  The goroutines take their steps in the order of `sched`;
the join waits for all of them, so those that have not returned when the
schedule ends are run to their end.  The batch starts with an empty trace: the
result holds the effects of this batch only. -/
def runBatch (w : Worker) (a : Answers) (sched : List Nat) (msgs : List Message) (moved : Int) :
    List Goroutine × Shared :=
  let r := runSchedule w a sched (spawnFrom 0 msgs) { messagesMoved := moved, trace := [] }
  drain w a r.1 r.2

/-- One pass of the loop of `transferMessages` as the world decides it: what
`ReceiveMessage` returns (an error or the messages), the interleaving of the
goroutines of the batch, and the answers to their calls. -/
structure Round where
  resp : Except String (List Message)
  sched : List Nat
  answers : Answers

/-- How a run of `transferMessages` over a finite list of rounds ends: it
returned (lines 114, 120), it panicked on a fetch error (line 109), or it is
about to fetch again with the given `lastMessageCount`. -/
inductive Outcome where
  | done
  | panicked (err : String)
  | running (lastMessageCount : Nat)
  deriving DecidableEq, Repr

/-- Lines 123-172, the rest of a pass once the worker goes on: the line
`received N messages...`, then the batch and its join. -/
def processBatch (w : Worker) (r : Round) (msgs : List Message) (sh : Shared) : Shared :=
  let sh2 := sh.emit (.logLine none ("received " ++ toString msgs.length ++ " messages..."))
  let b := (runBatch w r.answers r.sched msgs sh2.messagesMoved).2
  { messagesMoved := b.messagesMoved, trace := sh2.trace ++ b.trace }

/-- The loop of `transferMessages`, lines 105-173, over the rounds the world
supplies. -/
def transferLoop (w : Worker) : List Round → Nat → Shared → Outcome × Shared
  | [], lastMessageCount, sh => (.running lastMessageCount, sh)
  | r :: rest, lastMessageCount, sh =>
    let sh1 := sh.emit (.receive w.rmin)
    match r.resp with
    | .error err => (.panicked err, sh1)
    | .ok msgs =>
      if limitReached w.limit sh1.messagesMoved then
        (.done, sh1.emit (.logLine none "done"))
      else if lastMessageCount == 0 && msgs.length == 0 then
        (.done, sh1.emit (.logLine none "done"))
      else
        transferLoop w rest msgs.length (processBatch w r msgs sh1)

/-- The function `transferMessages` (line 97): the loop entered with
`lastMessageCount` 1 (line 100). -/
def transferMessages (w : Worker) (rounds : List Round) (sh : Shared) : Outcome × Shared :=
  transferLoop w rounds 1 sh

/-- The number of messages the fetches of the rounds return. -/
def fetched : List Round → Nat
  | [] => 0
  | r :: rest =>
    (match r.resp with
      | .ok msgs => msgs.length
      | .error _ => 0) + fetched rest

/-! ## Reading a trace -/

/-- The events of a trace that belong to goroutine `g`. -/
def byIssuer (g : Nat) (t : List Event) : List Event :=
  t.filter (fun e => e.issuer == some g)

/-- The `SendMessage` requests of a trace, in order. -/
def sentInputs : List Event → List SendMessageInput
  | [] => []
  | .send _ smi :: t => smi :: sentInputs t
  | _ :: t => sentInputs t

/-- The `DeleteMessage` requests of a trace, in order. -/
def deletedInputs : List Event → List DeleteMessageInput
  | [] => []
  | .delete _ dmi :: t => dmi :: deletedInputs t
  | _ :: t => deletedInputs t

/-- The number of `ReceiveMessage` calls of a trace. -/
def fetchCount : List Event → Nat
  | [] => 0
  | .receive _ :: t => fetchCount t + 1
  | _ :: t => fetchCount t

/-- Whether an event is a `SendMessage` or a `DeleteMessage` call or an
increment of the counter. -/
def Event.isTransfer : Event → Bool
  | .send _ _ => true
  | .add _ => true
  | .delete _ _ => true
  | _ => false

/-- Whether an event is a `SendMessage` call. -/
def Event.isSend : Event → Bool
  | .send _ _ => true
  | _ => false

/-- Whether an event is a `DeleteMessage` call. -/
def Event.isDelete : Event → Bool
  | .delete _ _ => true
  | _ => false

/-- Whether an event is something else than a log line. -/
def Event.notLog : Event → Bool
  | .logLine _ _ => false
  | _ => true

/-- The number of increments of the counter in a trace. -/
def addCount (t : List Event) : Nat :=
  t.countP (fun e => match e with | .add _ => true | _ => false)

/-- The number of `SendMessage` calls of a trace that succeeded. -/
def succSends (a : Answers) (t : List Event) : Nat :=
  t.countP (fun e => match e with | .send g _ => (a.sendErr g).isNone | _ => false)

/-- The messages of the goroutines that caused some event, in the order of the
batch. -/
def movedMessages (gs : List Goroutine) (t : List Event) : List Message :=
  (gs.filter (fun g => !(byIssuer g.id t).isEmpty)).map (fun g => g.m)

/-! ## What a goroutine leaves in the trace -/

/-- The goroutine of the message at index `i` of a batch, once it has returned. -/
def returned (i : Nat) (m : Message) : Goroutine :=
  { id := i, m := m, pc := .done }

/-- The events of a goroutine whose `SendMessage` failed with `err`. -/
def sendFailedTrace (w : Worker) (g : Goroutine) (err : String) : List Event :=
  [.send g.id (sendInput w g.m),
    .logLine (some g.id) ("ERROR sending message to destination " ++ err)]

/-- The events of a goroutine that moved its message: send, count, delete, and
the log line of a failed delete. -/
def movedTrace (w : Worker) (a : Answers) (g : Goroutine) : List Event :=
  [.send g.id (sendInput w g.m), .add g.id, .delete g.id (deleteInput w g.m)] ++
    (match a.deleteErr g.id with
      | some err =>
        [.logLine (some g.id)
          ("ERROR dequeueing message ID " ++ g.m.receiptHandle ++ " : " ++ err)]
      | none => [])

/-- The three lists of events a returned goroutine can have caused: none (it was
filtered out or found the limit reached), a failed send, or a moved message. -/
def Finished (w : Worker) (a : Answers) (g : Goroutine) (t : List Event) : Prop :=
  t = [] ∨
  (w.includeRegex g.m.body = true ∧
    ∃ err, a.sendErr g.id = some err ∧ t = sendFailedTrace w g err) ∨
  (w.includeRegex g.m.body = true ∧ a.sendErr g.id = none ∧ t = movedTrace w a g)

/-- The events a goroutine has caused so far, given where it stands. -/
def Good (w : Worker) (a : Answers) (g : Goroutine) (t : List Event) : Prop :=
  match g.pc with
  | .filter => t = []
  | .limitCheck => w.includeRegex g.m.body = true ∧ t = []
  | .send => w.includeRegex g.m.body = true ∧ t = []
  | .add => w.includeRegex g.m.body = true ∧ a.sendErr g.id = none ∧
      t = [.send g.id (sendInput w g.m)]
  | .delete => w.includeRegex g.m.body = true ∧ a.sendErr g.id = none ∧
      t = [.send g.id (sendInput w g.m), .add g.id]
  | .done => Finished w a g t

/-! ## Invariants of a batch -/

/-- A property of the goroutines and the shared state of a batch that every step
of every goroutine keeps. -/
def StepClosed (w : Worker) (a : Answers) (I : List Goroutine → Shared → Prop) : Prop :=
  ∀ pre g post sh, I (pre ++ g :: post) sh →
    I (pre ++ (pipeStep w a g sh).1 :: post) (pipeStep w a g sh).2

/-- The goroutines have distinct indices and each has caused the events its
position tells. -/
def GoodAll (w : Worker) (a : Answers) (gs : List Goroutine) (sh : Shared) : Prop :=
  (gs.map (fun g => g.id)).Nodup ∧ ∀ g ∈ gs, Good w a g (byIssuer g.id sh.trace)

/-- The number of goroutines that stand right before `messagesMoved.Add(1)`. -/
def pendingAdds (gs : List Goroutine) : Nat :=
  gs.countP (fun g => g.pc == .add)

/-- The number of goroutines that have not yet passed `messagesMoved.Add(1)` nor
returned. -/
def preAdd (gs : List Goroutine) : Nat :=
  gs.countP (fun g => g.pc == .filter || g.pc == .limitCheck || g.pc == .send || g.pc == .add)

/-- The counter is its value `c0` at the start of the batch incremented once per
`add` event; every successful send has been counted or is about to be; a
goroutine increments at most once. -/
def CountInv (a : Answers) (c0 : Int) (gs : List Goroutine) (sh : Shared) : Prop :=
  sh.messagesMoved = bump^[addCount sh.trace] c0 ∧
  addCount sh.trace + pendingAdds gs = succSends a sh.trace ∧
  addCount sh.trace + preAdd gs ≤ gs.length

/-- The indices and messages of the goroutines are those of `skel`. -/
def Skeleton (skel : List (Nat × Message)) (gs : List Goroutine) (_ : Shared) : Prop :=
  gs.map (fun g => (g.id, g.m)) = skel

/-- Every event of the trace belongs to one of the goroutines. -/
def Owned (gs : List Goroutine) (sh : Shared) : Prop :=
  ∀ e ∈ sh.trace, ∃ g ∈ gs, e.issuer = some g.id

/-- A batch that cannot overflow the counter, in which a goroutine that returned
without any event found the limit reached. -/
def RejInv (w : Worker) (a : Answers) (c0 : Int) (gs : List Goroutine) (sh : Shared) : Prop :=
  CountInv a c0 gs sh ∧ -9223372036854775808 ≤ c0 ∧
  c0 + gs.length < 9223372036854775808 ∧
  ∀ g ∈ gs, g.pc = .done → byIssuer g.id sh.trace = [] →
    limitReached w.limit sh.messagesMoved = true

/-- A batch that cannot overflow the counter, whose counter is at least `x`. -/
def MonoInv (a : Answers) (c0 x : Int) (gs : List Goroutine) (sh : Shared) : Prop :=
  CountInv a c0 gs sh ∧ -9223372036854775808 ≤ c0 ∧
  c0 + gs.length < 9223372036854775808 ∧ x ≤ sh.messagesMoved

/-- Every goroutine is at its start or has returned, and the counter is between
0 and the limit. -/
def SerialOk (w : Worker) (gs : List Goroutine) (sh : Shared) : Prop :=
  (∀ g ∈ gs, g.pc = .filter ∨ g.pc = .done) ∧ 0 ≤ sh.messagesMoved ∧
    sh.messagesMoved ≤ w.limit

/-- Two shared states with the same counter and the same trace up to log
lines. -/
def SameButLogs (s t : Shared) : Prop :=
  s.messagesMoved = t.messagesMoved ∧ s.trace.filter Event.notLog = t.trace.filter Event.notLog

/-- The number of steps a goroutine can still take. -/
def rank : Pc → Nat
  | .filter => 5
  | .limitCheck => 4
  | .send => 3
  | .add => 2
  | .delete => 1
  | .done => 0

/-! ## Scenarios -/

/-- The answers of queues on which every call succeeds. -/
def allOk : Answers :=
  { sendErr := fun _ => none, deleteErr := fun _ => none }

/-- The answers of queues on which the send of message 0 and the delete of
message 2 fail. -/
def someFail : Answers :=
  { sendErr := fun g => if g = 0 then some "timeout" else none
    deleteErr := fun g => if g = 2 then some "gone" else none }

/-- The rounds in which the fetches return the given batches, the goroutines of
each batch interleave as the schedule paired with it tells (the empty schedule:
one after another, in the order of the batch), and every send and delete
succeeds. -/
def okRounds (batches : List (List Message × List Nat)) : List Round :=
  batches.map (fun p => { resp := .ok p.1, sched := p.2, answers := allOk })

/-- Whether a worker entering its loop with the given `lastMessageCount` would
meet two empty fetches in a row in the batches given. -/
def twoEmpty : Nat → List (List Message) → Bool
  | _, [] => false
  | lastMessageCount, b :: bs => (lastMessageCount == 0 && b.length == 0) || twoEmpty b.length bs

/-- The schedule in which the goroutines named in `order` run one after another,
each from its start to its return (five steps are enough, and a returned
goroutine takes no further step); the goroutines left over are run to their end
by the join, in the order of the batch.  Every run of a batch in which the
goroutines do not overlap is the run of such a schedule. -/
def serialSchedule : List Nat → List Nat
  | [] => []
  | i :: order => [i, i, i, i, i] ++ serialSchedule order

/-- The message with the given body and receipt handle, without attributes. -/
def msg (body receipt : String) : Message :=
  { body := body, messageAttributes := [], receiptHandle := receipt }

/-- A worker of `main` that keeps the bodies starting with `keep`, without
limit. -/
def keepWorker : Worker :=
  mainWorker { defaultFlags with src := "S", dest := "D", includePattern := "keep" }
    (fun s => "keep".toList.isPrefixOf s.toList)

/-- A worker of `main` that keeps every body, with the limit given. -/
def plainWorker (limit : Int) : Worker :=
  mainWorker { defaultFlags with src := "S", dest := "D", limit := limit } (fun _ => true)

/-- The batch of the filter scenario. -/
def keepBatch : List Message :=
  [msg "keep-1" "r1", msg "skip-2" "r2", msg "keep-3" "r3"]

/-- The batch of the limit scenario: five messages. -/
def fiveBatch : List Message :=
  [msg "a" "r1", msg "b" "r2", msg "c" "r3", msg "d" "r4", msg "e" "r5"]

/-- The schedule in which the five goroutines of a batch each pass the filter,
then each pass the limit check, before any of them sends. -/
def racingSchedule : List Nat :=
  [0, 1, 2, 3, 4, 0, 1, 2, 3, 4]

/-! # Proofs -/

/-! ## Machine integers and the limit test -/

/-- An increment of a counter below the largest 64 bit integer adds one. -/
theorem bump_eq (c : Int) (h1 : -9223372036854775808 ≤ c) (h2 : c < 9223372036854775807) :
    bump c = c + 1 := by
  simp only [bump, wrapInt64]
  omega

/-- `n` increments of a counter that does not overflow add `n`. -/
theorem bump_iterate (n : Nat) (c : Int) (h1 : -9223372036854775808 ≤ c)
    (h2 : c + n < 9223372036854775808) : bump^[n] c = c + n := by
  induction n with
  | zero => simp
  | succ n ih =>
    rw [Function.iterate_succ_apply', ih (by push_cast at h2; omega)]
    simp only [bump, wrapInt64]
    push_cast at h2 ⊢
    omega

/-- With the limit -1 the limit test never fires. -/
theorem limitReached_none (moved : Int) : limitReached (-1) moved = false := by
  simp [limitReached]

/-- For a limit `L ≥ 0` the limit test is `L ≤ messagesMoved`. -/
theorem limitReached_iff (limit moved : Int) (h0 : 0 ≤ limit)
    (h1 : limit < 9223372036854775808) : limitReached limit moved = true ↔ limit ≤ moved := by
  simp only [limitReached, wrapInt64, Bool.and_eq_true, bne_iff_ne, ne_eq, decide_eq_true_eq]
  omega

/-- Once the limit test fires it fires for every larger value of the counter. -/
theorem limitReached_mono (limit c c1 : Int) (h : limitReached limit c = true) (hc : c ≤ c1) :
    limitReached limit c1 = true := by
  simp only [limitReached, Bool.and_eq_true, bne_iff_ne, ne_eq, decide_eq_true_eq] at h ⊢
  exact ⟨h.1, by omega⟩

/-! ## Steps of one goroutine -/

/-- A step keeps the index of the goroutine. -/
theorem pipeStep_id (w : Worker) (a : Answers) (g : Goroutine) (sh : Shared) :
    (pipeStep w a g sh).1.id = g.id := by
  unfold pipeStep
  cases g.pc <;> simp <;> split <;> rfl

/-- A step keeps the message of the goroutine. -/
theorem pipeStep_m (w : Worker) (a : Answers) (g : Goroutine) (sh : Shared) :
    (pipeStep w a g sh).1.m = g.m := by
  unfold pipeStep
  cases g.pc <;> simp <;> split <;> rfl

/-- A step appends events to the trace, all of them events of the stepping goroutine. -/
theorem pipeStep_trace (w : Worker) (a : Answers) (g : Goroutine) (sh : Shared) :
    ∃ new, (pipeStep w a g sh).2.trace = sh.trace ++ new ∧ ∀ e ∈ new, e.issuer = some g.id := by
  unfold pipeStep
  cases g.pc <;> simp only
  · split <;> exact ⟨[], by simp⟩
  · split <;> exact ⟨[], by simp⟩
  · cases a.sendErr g.id with
    | some err =>
      exact ⟨[.send g.id (sendInput w g.m),
        .logLine (some g.id) ("ERROR sending message to destination " ++ err)],
        by simp [Shared.emit], by simp [Event.issuer]⟩
    | none =>
      exact ⟨[.send g.id (sendInput w g.m)], by simp [Shared.emit], by simp [Event.issuer]⟩
  · exact ⟨[.add g.id], by simp, by simp [Event.issuer]⟩
  · cases a.deleteErr g.id with
    | some err =>
      exact ⟨[.delete g.id (deleteInput w g.m),
        .logLine (some g.id)
          ("ERROR dequeueing message ID " ++ g.m.receiptHandle ++ " : " ++ err)],
        by simp [Shared.emit], by simp [Event.issuer]⟩
    | none =>
      exact ⟨[.delete g.id (deleteInput w g.m)], by simp [Shared.emit], by simp [Event.issuer]⟩
  · exact ⟨[], by simp⟩

/-- A step of a goroutine leaves the counter or adds one to it. -/
theorem pipeStep_counter (w : Worker) (a : Answers) (g : Goroutine) (sh : Shared) :
    (pipeStep w a g sh).2.messagesMoved = sh.messagesMoved ∨
      (g.pc = .add ∧ (pipeStep w a g sh).2.messagesMoved = bump sh.messagesMoved) := by
  obtain ⟨id, m, pc⟩ := g
  cases pc
  · by_cases hm : w.includeRegex m.body = true <;> simp [pipeStep, hm]
  · by_cases hl : limitReached w.limit sh.messagesMoved = true <;> simp [pipeStep, hl]
  · cases hs : a.sendErr id <;> simp [pipeStep, hs, Shared.emit]
  · simp [pipeStep]
  · cases hs : a.deleteErr id <;> simp [pipeStep, hs, Shared.emit]
  · simp [pipeStep]

/-- A returned goroutine does nothing. -/
theorem pipeStep_done_fixed (w : Worker) (a : Answers) (g : Goroutine) (sh : Shared)
    (hg : g.pc = .done) : pipeStep w a g sh = (g, sh) := by
  obtain ⟨id, m, pc⟩ := g
  simp only at hg
  subst hg
  rfl

/-- A step uses up one of the steps a goroutine can still take. -/
theorem pipeStep_rank (w : Worker) (a : Answers) (g : Goroutine) (sh : Shared) :
    rank (pipeStep w a g sh).1.pc ≤ rank g.pc - 1 := by
  obtain ⟨id, m, pc⟩ := g
  cases pc <;> simp only [pipeStep] <;> (try split) <;> simp [rank]

/-- A goroutine with at most `n + 1` steps to take has at most `n` after a step. -/
theorem pipeStep_rank_le (w : Worker) (a : Answers) (g : Goroutine) (sh : Shared) (n : Nat)
    (h : rank g.pc ≤ n + 1) : rank (pipeStep w a g sh).1.pc ≤ n := by
  have := pipeStep_rank w a g sh
  omega

/-- A goroutine run to its end has returned. -/
theorem finish_done (w : Worker) (a : Answers) (g : Goroutine) (sh : Shared) :
    (finish w a g sh).1.pc = .done := by
  have h0 : rank g.pc ≤ 4 + 1 := by cases g.pc <;> simp [rank]
  have h : rank (finish w a g sh).1.pc ≤ 0 := by
    unfold finish
    exact pipeStep_rank_le w a _ _ 0 (pipeStep_rank_le w a _ _ 1 (pipeStep_rank_le w a _ _ 2
      (pipeStep_rank_le w a _ _ 3 (pipeStep_rank_le w a _ _ 4 h0))))
  revert h
  cases (finish w a g sh).1.pc <;> simp [rank]

/-- A goroutine run alone from its start, when its message matches, the limit is
not reached and both calls succeed: send, count, delete. -/
theorem finish_moves (w : Worker) (a : Answers) (k : Nat) (m : Message) (sh : Shared)
    (hm : w.includeRegex m.body = true) (hl : limitReached w.limit sh.messagesMoved = false)
    (hs : a.sendErr k = none) (hd : a.deleteErr k = none) :
    finish w a { id := k, m := m, pc := .filter } sh =
      ({ id := k, m := m, pc := .done },
        { messagesMoved := bump sh.messagesMoved,
          trace := sh.trace ++
            [.send k (sendInput w m), .add k, .delete k (deleteInput w m)] }) := by
  simp [finish, pipeStep, hm, hl, hs, hd, Shared.emit]

/-- A goroutine run alone from its start when the limit is reached: nothing. -/
theorem finish_skips (w : Worker) (a : Answers) (k : Nat) (m : Message) (sh : Shared)
    (hm : w.includeRegex m.body = true) (hl : limitReached w.limit sh.messagesMoved = true) :
    finish w a { id := k, m := m, pc := .filter } sh = ({ id := k, m := m, pc := .done }, sh) := by
  simp [finish, pipeStep, hm, hl]

/-- A returned goroutine run to its end does nothing. -/
theorem finish_done_fixed (w : Worker) (a : Answers) (g : Goroutine) (sh : Shared)
    (hg : g.pc = .done) : finish w a g sh = (g, sh) := by
  simp only [finish, pipeStep_done_fixed w a g sh hg]

/-- A goroutine run alone from its start to its return, every body matching and
every call succeeding, keeps the counter between 0 and the limit. -/
theorem finish_serialOk (w : Worker) (a : Answers) (hall : ∀ s, w.includeRegex s = true)
    (hs : ∀ k, a.sendErr k = none) (hd : ∀ k, a.deleteErr k = none)
    (h0 : 0 ≤ w.limit) (h1 : w.limit < 9223372036854775808)
    (g : Goroutine) (sh : Shared) (hg : g.pc = .filter ∨ g.pc = .done)
    (hc : 0 ≤ sh.messagesMoved) (hL : sh.messagesMoved ≤ w.limit) :
    ((finish w a g sh).1.pc = .filter ∨ (finish w a g sh).1.pc = .done) ∧
      0 ≤ (finish w a g sh).2.messagesMoved ∧ (finish w a g sh).2.messagesMoved ≤ w.limit := by
  rcases hg with hg | hg
  · obtain ⟨id, m, pc⟩ := g
    simp only at hg
    subst hg
    by_cases hl : limitReached w.limit sh.messagesMoved = true
    · rw [finish_skips w a id m sh (hall _) hl]
      exact ⟨Or.inr rfl, hc, hL⟩
    · simp only [Bool.not_eq_true] at hl
      have hlt : sh.messagesMoved < w.limit := by
        by_contra hge
        have := (limitReached_iff _ _ h0 h1).mpr (not_lt.mp hge)
        rw [hl] at this
        exact absurd this (by decide)
      rw [finish_moves w a id m sh (hall _) hl (hs id) (hd id)]
      have hb := bump_eq sh.messagesMoved (by omega) (by omega)
      refine ⟨Or.inr rfl, ?_, ?_⟩
      · show 0 ≤ bump sh.messagesMoved
        omega
      · show bump sh.messagesMoved ≤ w.limit
        omega
  · rw [finish_done_fixed w a g sh hg]
    exact ⟨Or.inr hg, hc, hL⟩

/-! ## Traces -/

/-- The events of a goroutine in a trace made of two parts. -/
theorem byIssuer_append (j : Nat) (s t : List Event) :
    byIssuer j (s ++ t) = byIssuer j s ++ byIssuer j t := by
  simp [byIssuer]

/-- Events of goroutine `k` are not events of another goroutine `j`. -/
theorem byIssuer_other (j k : Nat) (hjk : j ≠ k) (new : List Event)
    (h : ∀ e ∈ new, e.issuer = some k) : byIssuer j new = [] := by
  simp only [byIssuer, List.filter_eq_nil_iff]
  intro e he
  rw [h e he]
  simp [Ne.symm hjk]

/-- A goroutine without event in a trace has none in its parts. -/
theorem byIssuer_nil_of_append (i : Nat) (s t : List Event) (h : byIssuer i (s ++ t) = []) :
    byIssuer i s = [] ∧ byIssuer i t = [] := by
  rw [byIssuer_append] at h
  exact List.append_eq_nil.mp h

/-- The events of goroutine `i` are the events of the trace issued by `i`. -/
theorem mem_byIssuer (i : Nat) (t : List Event) (e : Event) :
    e ∈ byIssuer i t ↔ e ∈ t ∧ e.issuer = some i := by
  simp [byIssuer]

/-- A send of goroutine `i` is in the trace iff it is among the events of `i`. -/
theorem send_mem_iff (i : Nat) (t : List Event) (smi : SendMessageInput) :
    Event.send i smi ∈ t ↔ Event.send i smi ∈ byIssuer i t := by
  simp [mem_byIssuer, Event.issuer]

/-- A delete of goroutine `i` is in the trace iff it is among the events of `i`. -/
theorem delete_mem_iff (i : Nat) (t : List Event) (dmi : DeleteMessageInput) :
    Event.delete i dmi ∈ t ↔ Event.delete i dmi ∈ byIssuer i t := by
  simp [mem_byIssuer, Event.issuer]

/-- An increment by goroutine `i` is in the trace iff it is among the events of `i`. -/
theorem add_mem_iff (i : Nat) (t : List Event) :
    Event.add i ∈ t ↔ Event.add i ∈ byIssuer i t := by
  simp [mem_byIssuer, Event.issuer]

/-- The sends of a trace made of two parts. -/
theorem sentInputs_append (s t : List Event) :
    sentInputs (s ++ t) = sentInputs s ++ sentInputs t := by
  induction s with
  | nil => simp [sentInputs]
  | cons e s ih => cases e <;> simp [sentInputs, ih]

/-- The deletes of a trace made of two parts. -/
theorem deletedInputs_append (s t : List Event) :
    deletedInputs (s ++ t) = deletedInputs s ++ deletedInputs t := by
  induction s with
  | nil => simp [deletedInputs]
  | cons e s ih => cases e <;> simp [deletedInputs, ih]

/-- The number of sends of a trace. -/
theorem sentInputs_length (t : List Event) : (sentInputs t).length = t.countP Event.isSend := by
  induction t with
  | nil => rfl
  | cons e t ih => cases e <;> simp [sentInputs, Event.isSend, List.countP_cons, ih]

/-- The number of deletes of a trace. -/
theorem deletedInputs_length (t : List Event) :
    (deletedInputs t).length = t.countP Event.isDelete := by
  induction t with
  | nil => rfl
  | cons e t ih => cases e <;> simp [deletedInputs, Event.isDelete, List.countP_cons, ih]

/-- When every send succeeds the successful sends are the sends. -/
theorem succSends_eq (a : Answers) (hs : ∀ k, a.sendErr k = none) (t : List Event) :
    succSends a t = t.countP Event.isSend := by
  unfold succSends
  congr 1
  funext e
  cases e <;> simp [Event.isSend, hs]

/-- The increments of a trace made of two parts. -/
theorem addCount_append (s t : List Event) : addCount (s ++ t) = addCount s + addCount t := by
  simp [addCount, List.countP_append]

/-- The fetches of a trace made of two parts. -/
theorem fetchCount_append (s t : List Event) :
    fetchCount (s ++ t) = fetchCount s + fetchCount t := by
  induction s with
  | nil => simp [fetchCount]
  | cons e s ih => cases e <;> simp [fetchCount, ih, Nat.add_right_comm]

/-- A trace of events of goroutines holds no fetch. -/
theorem fetchCount_of_issued (t : List Event) (h : ∀ e ∈ t, ∃ i : Nat, e.issuer = some i) :
    fetchCount t = 0 := by
  induction t with
  | nil => rfl
  | cons e t ih =>
    have h1 := h e (by simp)
    have h2 := ih (fun e he => h e (by simp [he]))
    cases e <;> simp_all [fetchCount, Event.issuer]

/-- Counting the events of a trace goroutine by goroutine. -/
theorem countP_by_issuer (p : Event → Bool) (n : Nat) (t : List Event)
    (h : ∀ e ∈ t, ∃ i, i < n ∧ e.issuer = some i) :
    t.countP p = ∑ i in Finset.range n, (byIssuer i t).countP p := by
  induction t with
  | nil => simp [byIssuer]
  | cons e t ih =>
    obtain ⟨j, hj, hej⟩ := h e (by simp)
    have ih' := ih (fun e he => h e (by simp [he]))
    have hstep : ∀ i, (byIssuer i (e :: t)).countP p =
        (byIssuer i t).countP p + (if j = i then (if p e = true then 1 else 0) else 0) := by
      intro i
      by_cases hji : j = i
      · subst hji
        simp [byIssuer, List.filter_cons, hej, List.countP_cons]
      · have : (e.issuer == some i) = false := by
          rw [hej]; simp [hji]
        simp [byIssuer, List.filter_cons, this, hji]
    simp only [hstep, Finset.sum_add_distrib, Finset.sum_ite_eq, Finset.mem_range, hj, if_true]
    rw [List.countP_cons, ih']

/-- An event of goroutine `i` put in front of a trace is put in front of the events of `i`. -/
theorem byIssuer_cons_self (e : Event) (i : Nat) (t : List Event) (h : e.issuer = some i) :
    byIssuer i (e :: t) = e :: byIssuer i t := by
  simp [byIssuer, List.filter_cons, h]

/-- An event of goroutine `i` put in front of a trace leaves the events of another goroutine. -/
theorem byIssuer_cons_other (e : Event) (i j : Nat) (t : List Event) (h : e.issuer = some i)
    (hij : j ≠ i) : byIssuer j (e :: t) = byIssuer j t := by
  have : (e.issuer == some j) = false := by
    rw [h]; simp [Ne.symm hij]
  simp [byIssuer, List.filter_cons, this]

/-- The same for a list of goroutines other than `i`. -/
theorem flatMap_byIssuer_cons_other (e : Event) (i : Nat) (t : List Event)
    (h : e.issuer = some i) (l : List Goroutine) (hl : ∀ g ∈ l, g.id ≠ i) :
    l.flatMap (fun g => byIssuer g.id (e :: t)) = l.flatMap (fun g => byIssuer g.id t) := by
  induction l with
  | nil => rfl
  | cons g l ih =>
    simp only [List.flatMap_cons]
    rw [byIssuer_cons_other e i g.id t h (hl g (by simp)),
      ih (fun g1 hg1 => hl g1 (by simp [hg1]))]

/-- A trace whose events all belong to goroutines with distinct indices is, up to
the order, the events of the first goroutine, then those of the second, and so
on. -/
theorem perm_flatMap_byIssuer (gs : List Goroutine) (hnd : (gs.map (fun g => g.id)).Nodup)
    (t : List Event) (hown : ∀ e ∈ t, ∃ g ∈ gs, e.issuer = some g.id) :
    t.Perm (gs.flatMap (fun g => byIssuer g.id t)) := by
  induction t with
  | nil =>
    have : ∀ l : List Goroutine, l.flatMap (fun g => byIssuer g.id []) = [] := by
      intro l
      induction l with
      | nil => rfl
      | cons g l ih =>
        simp only [List.flatMap_cons, ih]
        rfl
    rw [this]
  | cons e t ih =>
    obtain ⟨g0, hg0, he⟩ := hown e (by simp)
    obtain ⟨pre, post, hsplit⟩ := List.append_of_mem hg0
    have ih' := ih (fun e1 he1 => hown e1 (by simp [he1]))
    subst hsplit
    simp only [List.map_append, List.map_cons] at hnd
    have hmid := List.nodup_middle.mp hnd
    rw [List.nodup_cons] at hmid
    have hpre : ∀ g ∈ pre, g.id ≠ g0.id := by
      intro g hg heq
      apply hmid.1
      rw [← heq]
      exact List.mem_append_left _ (List.mem_map_of_mem _ hg)
    have hpost : ∀ g ∈ post, g.id ≠ g0.id := by
      intro g hg heq
      apply hmid.1
      rw [← heq]
      exact List.mem_append_right _ (List.mem_map_of_mem _ hg)
    simp only [List.flatMap_append, List.flatMap_cons] at ih' ⊢
    rw [flatMap_byIssuer_cons_other e g0.id t he pre hpre,
      flatMap_byIssuer_cons_other e g0.id t he post hpost, byIssuer_cons_self e g0.id t he]
    refine List.Perm.trans (List.Perm.cons e ih') ?_
    simp only [List.cons_append]
    exact List.perm_middle.symm

/-- Reordering a trace reorders its sends. -/
theorem sentInputs_perm (s t : List Event) (h : s.Perm t) :
    (sentInputs s).Perm (sentInputs t) := by
  induction h with
  | nil => exact List.Perm.refl _
  | cons e _ ih => cases e <;> simp [sentInputs, ih]
  | swap e1 e2 l => cases e1 <;> cases e2 <;> simp [sentInputs, List.Perm.swap]
  | trans _ _ ih1 ih2 => exact ih1.trans ih2

/-- Reordering a trace reorders its deletes. -/
theorem deletedInputs_perm (s t : List Event) (h : s.Perm t) :
    (deletedInputs s).Perm (deletedInputs t) := by
  induction h with
  | nil => exact List.Perm.refl _
  | cons e _ ih => cases e <;> simp [deletedInputs, ih]
  | swap e1 e2 l => cases e1 <;> cases e2 <;> simp [deletedInputs, List.Perm.swap]
  | trans _ _ ih1 ih2 => exact ih1.trans ih2

/-- Goroutines each of which caused no event or sent, counted and deleted its
message: the sends and deletes of their events, goroutine by goroutine, are
those of the messages moved. -/
theorem flatMap_moved (w : Worker) (t : List Event) (l : List Goroutine)
    (h : ∀ g ∈ l, byIssuer g.id t = [] ∨
      byIssuer g.id t = [.send g.id (sendInput w g.m), .add g.id, .delete g.id (deleteInput w g.m)]) :
    sentInputs (l.flatMap (fun g => byIssuer g.id t)) =
        (movedMessages l t).map (sendInput w) ∧
      deletedInputs (l.flatMap (fun g => byIssuer g.id t)) =
        (movedMessages l t).map (deleteInput w) := by
  induction l with
  | nil => exact ⟨rfl, rfl⟩
  | cons g l ih =>
    obtain ⟨i1, i2⟩ := ih (fun g1 hg1 => h g1 (by simp [hg1]))
    simp only [List.flatMap_cons, sentInputs_append, deletedInputs_append, i1, i2]
    rcases h g (by simp) with hg | hg
    · simp [movedMessages, List.filter_cons, hg, sentInputs, deletedInputs]
    · simp [movedMessages, List.filter_cons, hg, sentInputs, deletedInputs]

/-! ## The invariant rule of a batch -/

/-- An invariant holds after the step of the goroutine at any position. -/
theorem stepAt_keeps (w : Worker) (a : Answers) (I : List Goroutine → Shared → Prop)
    (hI : StepClosed w a I) (i : Nat) (gs : List Goroutine) :
    ∀ (pre : List Goroutine) (sh : Shared), I (pre ++ gs) sh →
      I (pre ++ (stepAt w a i gs sh).1) (stepAt w a i gs sh).2 := by
  induction gs generalizing i with
  | nil => intro pre sh h; cases i <;> simpa [stepAt] using h
  | cons g gs ih =>
    intro pre sh h
    cases i with
    | zero => simpa [stepAt] using hI pre g gs sh h
    | succ i =>
      have h1 : I ((pre ++ [g]) ++ gs) sh := by simpa using h
      have h2 := ih i (pre ++ [g]) sh h1
      simpa [stepAt] using h2

/-- An invariant holds after any schedule. -/
theorem runSchedule_keeps (w : Worker) (a : Answers) (I : List Goroutine → Shared → Prop)
    (hI : StepClosed w a I) (sched : List Nat) :
    ∀ (gs : List Goroutine) (sh : Shared), I gs sh →
      I (runSchedule w a sched gs sh).1 (runSchedule w a sched gs sh).2 := by
  induction sched with
  | nil => intro gs sh h; simpa [runSchedule] using h
  | cons i sched ih =>
    intro gs sh h
    have h1 := stepAt_keeps w a I hI i gs [] sh (by simpa using h)
    simpa [runSchedule] using ih _ _ (by simpa using h1)

/-- A schedule made of two parts runs the first part, then the second. -/
theorem runSchedule_append (w : Worker) (a : Answers) (s1 s2 : List Nat) :
    ∀ (gs : List Goroutine) (sh : Shared),
      runSchedule w a (s1 ++ s2) gs sh =
        runSchedule w a s2 (runSchedule w a s1 gs sh).1 (runSchedule w a s1 gs sh).2 := by
  induction s1 with
  | nil => intro gs sh; rfl
  | cons i s1 ih => intro gs sh; simp only [List.cons_append, runSchedule]; exact ih _ _

/-- An invariant holds after a goroutine is run to its end. -/
theorem finish_keeps (w : Worker) (a : Answers) (I : List Goroutine → Shared → Prop)
    (hI : StepClosed w a I) (pre : List Goroutine) (g : Goroutine) (post : List Goroutine)
    (sh : Shared) (h : I (pre ++ g :: post) sh) :
    I (pre ++ (finish w a g sh).1 :: post) (finish w a g sh).2 := by
  unfold finish
  exact hI _ _ _ _ (hI _ _ _ _ (hI _ _ _ _ (hI _ _ _ _ (hI _ _ _ _ h))))

/-- An invariant holds after all goroutines are run to their end. -/
theorem drain_keeps (w : Worker) (a : Answers) (I : List Goroutine → Shared → Prop)
    (hI : StepClosed w a I) (gs : List Goroutine) :
    ∀ (pre : List Goroutine) (sh : Shared), I (pre ++ gs) sh →
      I (pre ++ (drain w a gs sh).1) (drain w a gs sh).2 := by
  induction gs with
  | nil => intro pre sh h; simpa [drain] using h
  | cons g gs ih =>
    intro pre sh h
    have h1 := finish_keeps w a I hI pre g gs sh h
    have h2 : I ((pre ++ [(finish w a g sh).1]) ++ gs) (finish w a g sh).2 := by simpa using h1
    have h3 := ih _ _ h2
    simpa [drain] using h3

/-- The invariant rule: an invariant that holds when the goroutines of a batch are started holds when the batch is joined. -/
theorem runBatch_keeps (w : Worker) (a : Answers) (I : List Goroutine → Shared → Prop)
    (hI : StepClosed w a I) (sched : List Nat) (msgs : List Message) (moved : Int)
    (h : I (spawnFrom 0 msgs) { messagesMoved := moved, trace := [] }) :
    I (runBatch w a sched msgs moved).1 (runBatch w a sched msgs moved).2 := by
  unfold runBatch
  have h1 := runSchedule_keeps w a I hI sched _ _ h
  simpa using drain_keeps w a I hI _ [] _ (by simpa using h1)

/-- After the drain every goroutine has returned. -/
theorem drain_done (w : Worker) (a : Answers) (gs : List Goroutine) :
    ∀ (sh : Shared), ∀ g ∈ (drain w a gs sh).1, g.pc = .done := by
  induction gs with
  | nil => intro sh g hg; simp [drain] at hg
  | cons g0 gs ih =>
    intro sh g hg
    simp only [drain, List.mem_cons] at hg
    rcases hg with rfl | hg
    · exact finish_done w a g0 sh
    · exact ih _ g hg

/-- The join: when a batch ends every goroutine of it has returned. -/
theorem runBatch_done (w : Worker) (a : Answers) (sched : List Nat) (msgs : List Message)
    (moved : Int) : ∀ g ∈ (runBatch w a sched msgs moved).1, g.pc = .done := by
  unfold runBatch
  exact drain_done w a _ _

/-! ## The invariants -/

/-- A step of one goroutine leaves the events of every other goroutine as they were. -/
theorem pipeStep_other (w : Worker) (a : Answers) (g : Goroutine) (sh : Shared) (j : Nat)
    (hj : j ≠ g.id) : byIssuer j (pipeStep w a g sh).2.trace = byIssuer j sh.trace := by
  obtain ⟨new, h1, h2⟩ := pipeStep_trace w a g sh
  rw [h1, byIssuer_append, byIssuer_other j g.id hj new h2]
  simp

/-- A step of a goroutine keeps `Good` for that goroutine. -/
theorem pipeStep_good (w : Worker) (a : Answers) (g : Goroutine) (sh : Shared)
    (h : Good w a g (byIssuer g.id sh.trace)) :
    Good w a (pipeStep w a g sh).1 (byIssuer g.id (pipeStep w a g sh).2.trace) := by
  obtain ⟨id, m, pc⟩ := g
  cases pc <;> simp only [Good, pipeStep] at h ⊢
  · by_cases hm : w.includeRegex m.body = true
    · simp [hm, h]
    · simp [hm, h, Finished]
  · by_cases hl : limitReached w.limit sh.messagesMoved = true
    · simp [hl, h, Finished]
    · simp [hl, h]
  · cases hs : a.sendErr id with
    | none =>
      simp [hs, h, Shared.emit, byIssuer_append]
      simp [byIssuer, Event.issuer]
    | some err =>
      simp [hs, h, Shared.emit, byIssuer_append, Finished, sendFailedTrace]
      simp [byIssuer, Event.issuer]
  · simp [h, byIssuer_append]
    simp [byIssuer, Event.issuer]
  · cases hd : a.deleteErr id with
    | none =>
      simp [hd, h, Shared.emit, byIssuer_append, Finished, movedTrace]
      simp [byIssuer, Event.issuer]
    | some err =>
      simp [hd, h, Shared.emit, byIssuer_append, Finished, movedTrace]
      simp [byIssuer, Event.issuer]
  · exact h

/-- `GoodAll` is an invariant of a batch. -/
theorem goodAll_stepClosed (w : Worker) (a : Answers) : StepClosed w a (GoodAll w a) := by
  intro pre g post sh ⟨hnd, hgood⟩
  have hid := pipeStep_id w a g sh
  refine ⟨by simpa [hid] using hnd, ?_⟩
  have hne : ∀ h ∈ pre ++ post, h.id ≠ g.id := by
    intro h hh heq
    simp only [List.map_append, List.map_cons] at hnd
    have h1 := List.nodup_middle.mp hnd
    rw [List.nodup_cons] at h1
    apply h1.1
    rw [← List.map_append, ← heq]
    exact List.mem_map_of_mem _ hh
  intro h hh
  simp only [List.mem_append, List.mem_cons] at hh
  rcases hh with hh | rfl | hh
  · rw [pipeStep_other w a g sh h.id (hne h (by simp [hh]))]
    exact hgood h (by simp [hh])
  · rw [hid]
    exact pipeStep_good w a g sh (hgood g (by simp))
  · rw [pipeStep_other w a g sh h.id (hne h (by simp [hh]))]
    exact hgood h (by simp [hh])

/-- `Skeleton` is an invariant of a batch. -/
theorem skeleton_stepClosed (w : Worker) (a : Answers) (skel : List (Nat × Message)) :
    StepClosed w a (Skeleton skel) := by
  intro pre g post sh h
  simpa [Skeleton, pipeStep_id, pipeStep_m] using h

/-- `Owned` is an invariant of a batch. -/
theorem owned_stepClosed (w : Worker) (a : Answers) : StepClosed w a Owned := by
  intro pre g post sh h e he
  obtain ⟨new, h1, h2⟩ := pipeStep_trace w a g sh
  rw [h1, List.mem_append] at he
  rcases he with he | he
  · obtain ⟨g1, hg1, hid⟩ := h e he
    simp only [List.mem_append, List.mem_cons] at hg1
    rcases hg1 with hg1 | rfl | hg1
    · exact ⟨g1, by simp [hg1], hid⟩
    · exact ⟨(pipeStep w a g1 sh).1, by simp, by rw [pipeStep_id]; exact hid⟩
    · exact ⟨g1, by simp [hg1], hid⟩
  · exact ⟨(pipeStep w a g sh).1, by simp, by rw [pipeStep_id]; exact h2 e he⟩

/-- `CountInv` is an invariant of a batch. -/
theorem countInv_stepClosed (w : Worker) (a : Answers) (c0 : Int) :
    StepClosed w a (CountInv a c0) := by
  intro pre g post sh ⟨h1, h2, h3⟩
  obtain ⟨id, m, pc⟩ := g
  simp only [CountInv, addCount, succSends, pendingAdds, preAdd, List.countP_append,
    List.countP_cons, List.length_append, List.length_cons] at h1 h2 h3 ⊢
  cases pc
  · by_cases hm : w.includeRegex m.body = true
    · simp_all [pipeStep]
    · simp_all [pipeStep]
      omega
  · by_cases hl : limitReached w.limit sh.messagesMoved = true
    · simp_all [pipeStep]
      omega
    · simp_all [pipeStep]
  · cases hs : a.sendErr id <;>
      simp_all [pipeStep, Shared.emit, List.countP_append, List.countP_cons] <;> omega
  · simp_all [pipeStep, List.countP_append, List.countP_cons, Function.iterate_succ_apply', bump]
    omega
  · cases hs : a.deleteErr id <;>
      simp_all [pipeStep, Shared.emit, List.countP_append, List.countP_cons]
  · simp_all [pipeStep]

/-- Under `CountInv`, in a batch that cannot overflow the counter, the counter is
its value at the start plus the number of increments, and a step does not
decrease it. -/
theorem countInv_counter (a : Answers) (c0 : Int) (gs : List Goroutine) (sh : Shared)
    (hc : CountInv a c0 gs sh) (hlo : -9223372036854775808 ≤ c0)
    (hhi : c0 + gs.length < 9223372036854775808) :
    sh.messagesMoved = c0 + addCount sh.trace ∧ addCount sh.trace + preAdd gs ≤ gs.length := by
  obtain ⟨h1, _, h3⟩ := hc
  refine ⟨?_, h3⟩
  rw [h1]
  apply bump_iterate _ _ hlo
  have : (addCount sh.trace : Int) ≤ gs.length := by exact_mod_cast (by omega : addCount sh.trace ≤ gs.length)
  omega

/-- In a batch that cannot overflow the counter a step does not decrease it. -/
theorem pipeStep_counter_le (w : Worker) (a : Answers) (c0 : Int) (pre post : List Goroutine)
    (g : Goroutine) (sh : Shared) (hc : CountInv a c0 (pre ++ g :: post) sh)
    (hlo : -9223372036854775808 ≤ c0)
    (hhi : c0 + (pre ++ g :: post).length < 9223372036854775808) :
    sh.messagesMoved ≤ (pipeStep w a g sh).2.messagesMoved := by
  obtain ⟨h1, h2⟩ := countInv_counter a c0 _ sh hc hlo hhi
  rcases pipeStep_counter w a g sh with h | ⟨hpc, h⟩
  · rw [h]
  · rw [h, bump_eq _ (by omega) ?_]
    · omega
    · have hp : 1 ≤ preAdd (pre ++ g :: post) := by
        simp only [preAdd, List.countP_append, List.countP_cons, hpc]
        simp
        omega
      have : (addCount sh.trace : Int) + 1 ≤ (pre ++ g :: post).length := by
        exact_mod_cast (by omega : addCount sh.trace + 1 ≤ (pre ++ g :: post).length)
      omega

/-- `MonoInv` is an invariant of a batch. -/
theorem monoInv_stepClosed (w : Worker) (a : Answers) (c0 x : Int) :
    StepClosed w a (MonoInv a c0 x) := by
  intro pre g post sh ⟨hc, hlo, hhi, hx⟩
  have hle := pipeStep_counter_le w a c0 pre post g sh hc hlo hhi
  exact ⟨countInv_stepClosed w a c0 pre g post sh hc, hlo, by simpa using hhi, by omega⟩

/-- A goroutine that returns at this step without having caused any event found
the limit reached, when every body matches the pattern. -/
theorem pipeStep_rejected (w : Worker) (a : Answers) (hall : ∀ s, w.includeRegex s = true)
    (g : Goroutine) (sh : Shared) (hg : g.pc ≠ .done) (hdone : (pipeStep w a g sh).1.pc = .done)
    (hempty : byIssuer g.id (pipeStep w a g sh).2.trace = []) :
    limitReached w.limit (pipeStep w a g sh).2.messagesMoved = true := by
  obtain ⟨id, m, pc⟩ := g
  cases pc
  · simp [pipeStep, hall] at hdone
  · by_cases hl : limitReached w.limit sh.messagesMoved = true
    · simp [pipeStep, hl]
    · simp [pipeStep, hl] at hdone
  · cases hs : a.sendErr id
    · simp [pipeStep, hs] at hdone
    · simp [pipeStep, hs, Shared.emit, byIssuer_append] at hempty
      simp [byIssuer, Event.issuer] at hempty
  · simp [pipeStep] at hdone
  · cases hs : a.deleteErr id
    · simp [pipeStep, hs, Shared.emit, byIssuer_append] at hempty
      simp [byIssuer, Event.issuer] at hempty
    · simp [pipeStep, hs, Shared.emit, byIssuer_append] at hempty
      simp [byIssuer, Event.issuer] at hempty
  · exact absurd rfl hg

/-- `RejInv` is an invariant of a batch when every body matches the pattern. -/
theorem rejInv_stepClosed (w : Worker) (a : Answers) (c0 : Int)
    (hall : ∀ s, w.includeRegex s = true) : StepClosed w a (RejInv w a c0) := by
  intro pre g post sh ⟨hc, hlo, hhi, hrej⟩
  have hle := pipeStep_counter_le w a c0 pre post g sh hc hlo hhi
  refine ⟨countInv_stepClosed w a c0 pre g post sh hc, hlo, by simpa using hhi, ?_⟩
  obtain ⟨new, ht, _⟩ := pipeStep_trace w a g sh
  have hold : ∀ h ∈ pre ++ g :: post, h.pc = .done →
      byIssuer h.id (pipeStep w a g sh).2.trace = [] →
      limitReached w.limit (pipeStep w a g sh).2.messagesMoved = true := by
    intro h hh hd he
    rw [ht] at he
    exact limitReached_mono _ _ _ (hrej h hh hd (byIssuer_nil_of_append _ _ _ he).1) hle
  intro h hh hd he
  simp only [List.mem_append, List.mem_cons] at hh
  rcases hh with hh | rfl | hh
  · exact hold h (by simp [hh]) hd he
  · by_cases hg : g.pc = .done
    · rw [pipeStep_done_fixed w a g sh hg] at he ⊢
      exact hrej g (by simp) hg he
    · rw [pipeStep_id] at he
      exact pipeStep_rejected w a hall g sh hg hd he
  · exact hold h (by simp [hh]) hd he

/-! ## The start of a batch -/

/-- The goroutines started for a batch are numbered `k, k + 1, ...`. -/
theorem spawnFrom_ids (msgs : List Message) :
    ∀ k, (spawnFrom k msgs).map (fun g => g.id) = List.range' k msgs.length := by
  induction msgs with
  | nil => intro k; simp [spawnFrom]
  | cons m ms ih => intro k; simp [spawnFrom, ih, List.range'_succ]

/-- One goroutine is started per message. -/
theorem spawnFrom_length (msgs : List Message) :
    ∀ k, (spawnFrom k msgs).length = msgs.length := by
  induction msgs with
  | nil => intro k; simp [spawnFrom]
  | cons m ms ih => intro k; simp [spawnFrom, ih]

/-- A goroutine starts before the filter. -/
theorem spawnFrom_pc (msgs : List Message) :
    ∀ k, ∀ g ∈ spawnFrom k msgs, g.pc = .filter := by
  induction msgs with
  | nil => intro k g hg; simp [spawnFrom] at hg
  | cons m ms ih =>
    intro k g hg
    simp only [spawnFrom, List.mem_cons] at hg
    rcases hg with rfl | hg
    · rfl
    · exact ih _ g hg

/-- The message at index `i` of the batch gets the goroutine `k + i`. -/
theorem spawnFrom_mem (msgs : List Message) :
    ∀ (k i : Nat) (m : Message), msgs[i]? = some m →
      (k + i, m) ∈ (spawnFrom k msgs).map (fun g => (g.id, g.m)) := by
  induction msgs with
  | nil => intro k i m h; simp at h
  | cons m0 ms ih =>
    intro k i m h
    cases i with
    | zero =>
      simp only [List.getElem?_cons_zero, Option.some.injEq] at h
      simp [spawnFrom, h]
    | succ i =>
      simp only [List.getElem?_cons_succ] at h
      have := ih (k + 1) i m h
      simp only [spawnFrom, List.map_cons, List.mem_cons]
      right
      have e : k + (i + 1) = k + 1 + i := by omega
      rw [e]
      exact this

/-- The indices of the goroutines started for a batch. -/
theorem spawnFrom_mem_id (msgs : List Message) :
    ∀ (k : Nat), ∀ g ∈ spawnFrom k msgs, k ≤ g.id ∧ g.id < k + msgs.length := by
  intro k g hg
  have h1 : g.id ∈ (spawnFrom k msgs).map (fun g => g.id) := List.mem_map_of_mem _ hg
  rw [spawnFrom_ids, List.mem_range'_1] at h1
  exact h1

/-- `CountInv` holds when the goroutines of a batch are started. -/
theorem countInv_spawn (a : Answers) (c0 : Int) (msgs : List Message) :
    CountInv a c0 (spawnFrom 0 msgs) { messagesMoved := c0, trace := [] } := by
  refine ⟨by simp [addCount], ?_, ?_⟩
  · simp only [addCount, succSends, pendingAdds, List.countP_nil, zero_add,
      List.countP_eq_zero]
    intro g hg; simp [spawnFrom_pc msgs 0 g hg]
  · simp only [addCount, List.countP_nil, zero_add, preAdd]
    exact List.countP_le_length _

/-- The messages of the goroutines started for a batch are the batch. -/
theorem spawnFrom_msgs (msgs : List Message) :
    ∀ k, (spawnFrom k msgs).map (fun g => g.m) = msgs := by
  induction msgs with
  | nil => intro k; rfl
  | cons m ms ih => intro k; simp [spawnFrom, ih]

/-! ## The end of a batch, under any interleaving -/

/-- When a batch ends its goroutines are those started, index by index and message by message. -/
theorem runBatch_skeleton (w : Worker) (a : Answers) (sched : List Nat) (msgs : List Message)
    (moved : Int) :
    (runBatch w a sched msgs moved).1.map (fun g => (g.id, g.m)) =
      (spawnFrom 0 msgs).map (fun g => (g.id, g.m)) := by
  have h := runBatch_keeps w a
    (Skeleton ((spawnFrom 0 msgs).map (fun (g : Goroutine) => (g.id, g.m))))
    (skeleton_stepClosed w a _) sched msgs moved (by unfold Skeleton; rfl)
  unfold Skeleton at h
  exact h

/-- `Finished` depends on the index and the message of the goroutine only. -/
theorem finished_of_eq (w : Worker) (a : Answers) (g : Goroutine) (i : Nat) (m : Message)
    (t : List Event) (hi : g.id = i) (hm : g.m = m) (h : Finished w a g t) :
    Finished w a (returned i m) t := by
  subst hi; subst hm
  simpa [Finished, returned, sendFailedTrace, movedTrace] using h

/-- Whatever the interleaving, the events of the goroutine of message `i` of a
batch are one of the three traces of `Finished`. -/
theorem runBatch_finished (w : Worker) (a : Answers) (sched : List Nat) (msgs : List Message)
    (moved : Int) (i : Nat) (m : Message) (h : msgs[i]? = some m) :
    Finished w a (returned i m) (byIssuer i (runBatch w a sched msgs moved).2.trace) := by
  have hgood := runBatch_keeps w a (GoodAll w a) (goodAll_stepClosed w a) sched msgs moved (by
    refine ⟨?_, ?_⟩
    · rw [spawnFrom_ids]; exact List.nodup_range' _ _
    · intro g hg
      simp [Good, spawnFrom_pc msgs 0 g hg, byIssuer])
  have hskel := runBatch_skeleton w a sched msgs moved
  have hmem := spawnFrom_mem msgs 0 i m h
  rw [← hskel, List.mem_map] at hmem
  obtain ⟨g, hg, hkey⟩ := hmem
  simp only [Prod.mk.injEq, zero_add] at hkey
  have hdone := runBatch_done w a sched msgs moved g hg
  have hg2 := hgood.2 g hg
  simp only [Good, hdone] at hg2
  rw [hkey.1] at hg2
  exact finished_of_eq w a g i m _ hkey.1 hkey.2 hg2

/-- Every event of a batch belongs to the goroutine of one of its messages. -/
theorem runBatch_owned (w : Worker) (a : Answers) (sched : List Nat) (msgs : List Message)
    (moved : Int) :
    ∀ e ∈ (runBatch w a sched msgs moved).2.trace, ∃ i, i < msgs.length ∧ e.issuer = some i := by
  intro e he
  have hown := runBatch_keeps w a Owned (owned_stepClosed w a) sched msgs moved (by
    intro e he; simp at he)
  have hskel := runBatch_skeleton w a sched msgs moved
  obtain ⟨g, hg, hid⟩ := hown e he
  refine ⟨g.id, ?_, hid⟩
  have h1 : (g.id, g.m) ∈ (runBatch w a sched msgs moved).1.map (fun g => (g.id, g.m)) :=
    List.mem_map_of_mem _ hg
  rw [hskel, List.mem_map] at h1
  obtain ⟨g0, hg0, hkey⟩ := h1
  simp only [Prod.mk.injEq] at hkey
  have := spawnFrom_mem_id msgs 0 g0 hg0
  omega

/-- Among returned goroutines none is waiting to count. -/
theorem countP_eq_zero_of_done (gs : List Goroutine) (h : ∀ g ∈ gs, g.pc = .done) :
    pendingAdds gs = 0 ∧ preAdd gs = 0 := by
  constructor
  · simp only [pendingAdds, List.countP_eq_zero]
    intro g hg; simp [h g hg]
  · simp only [preAdd, List.countP_eq_zero]
    intro g hg; simp [h g hg]

/-- The counter after a batch: one `Add(1)` for each send that succeeded, and
nothing else. -/
theorem runBatch_counter (w : Worker) (a : Answers) (sched : List Nat) (msgs : List Message)
    (moved : Int) :
    (runBatch w a sched msgs moved).2.messagesMoved =
        bump^[succSends a (runBatch w a sched msgs moved).2.trace] moved ∧
      addCount (runBatch w a sched msgs moved).2.trace =
        succSends a (runBatch w a sched msgs moved).2.trace ∧
      succSends a (runBatch w a sched msgs moved).2.trace ≤ msgs.length := by
  have hc := runBatch_keeps w a (CountInv a moved) (countInv_stepClosed w a moved) sched msgs moved
    (by
      refine ⟨by simp [addCount], ?_, ?_⟩
      · simp only [addCount, succSends, pendingAdds, List.countP_nil, zero_add,
          List.countP_eq_zero]
        intro g hg; simp [spawnFrom_pc msgs 0 g hg]
      · simp only [addCount, List.countP_nil, zero_add, preAdd]
        exact List.countP_le_length _)
  have hskel := runBatch_skeleton w a sched msgs moved
  have hlen : (runBatch w a sched msgs moved).1.length = msgs.length := by
    have := congrArg List.length hskel
    simpa [spawnFrom_length] using this
  obtain ⟨hp, hq⟩ := countP_eq_zero_of_done _ (runBatch_done w a sched msgs moved)
  obtain ⟨h1, h2, h3⟩ := hc
  rw [hp] at h2
  rw [hq, hlen] at h3
  simp only [add_zero] at h2 h3
  exact ⟨by rw [h1, h2], h2, by omega⟩

/-- The events of a returned goroutine, by cases on the filter and on the answer
to its send. -/
theorem finished_cases (w : Worker) (a : Answers) (i : Nat) (m : Message) (t : List Event)
    (h : Finished w a (returned i m) t) :
    (w.includeRegex m.body = false → t = []) ∧
    (∀ err, a.sendErr i = some err → t = [] ∨ t = sendFailedTrace w (returned i m) err) ∧
    (a.sendErr i = none → t = [] ∨ t = movedTrace w a (returned i m)) := by
  simp only [Finished, returned] at h
  refine ⟨?_, ?_, ?_⟩
  · intro hno
    rcases h with h | ⟨hm, _⟩ | ⟨hm, _⟩
    · exact h
    · simp [hno] at hm
    · simp [hno] at hm
  · intro err herr
    rcases h with h | ⟨_, e, he, h⟩ | ⟨_, hn, _⟩
    · exact Or.inl h
    · rw [herr] at he
      simp only [Option.some.injEq] at he
      subst he
      exact Or.inr h
    · simp [herr] at hn
  · intro hnone
    rcases h with h | ⟨_, e, he, _⟩ | ⟨_, _, h⟩
    · exact Or.inl h
    · simp [hnone] at he
    · exact Or.inr h

/-- A batch none of whose messages matches the pattern leaves the counter and causes no event. -/
theorem runBatch_all_filtered (w : Worker) (a : Answers) (sched : List Nat) (msgs : List Message)
    (moved : Int) (hno : ∀ m ∈ msgs, w.includeRegex m.body = false) :
    (runBatch w a sched msgs moved).2 = { messagesMoved := moved, trace := [] } := by
  have ht : (runBatch w a sched msgs moved).2.trace = [] := by
    apply List.eq_nil_iff_forall_not_mem.mpr
    intro e he
    obtain ⟨i, hi, hiss⟩ := runBatch_owned w a sched msgs moved e he
    have hget : msgs[i]? = some msgs[i] := List.getElem?_eq_getElem hi
    have hfin := runBatch_finished w a sched msgs moved i _ hget
    have hnil := (finished_cases w a i _ _ hfin).1 (hno _ (List.getElem_mem hi))
    have : e ∈ byIssuer i (runBatch w a sched msgs moved).2.trace :=
      (mem_byIssuer i _ e).mpr ⟨he, hiss⟩
    rw [hnil] at this
    simp at this
  have hc := (runBatch_counter w a sched msgs moved).1
  rw [ht] at hc
  simp only [succSends, List.countP_nil, Function.iterate_zero, id_eq] at hc
  cases hr : (runBatch w a sched msgs moved).2 with
  | mk c t =>
    rw [hr] at ht hc
    simp only at ht hc
    rw [ht, hc]

/-- The events of a goroutine of a batch in which every body matches and every
call succeeds: none, or send, count, delete. -/
theorem runBatch_moved_or_nil (w : Worker) (a : Answers) (hs : ∀ k, a.sendErr k = none)
    (hd : ∀ k, a.deleteErr k = none) (sched : List Nat) (msgs : List Message) (moved : Int)
    (i : Nat) (hi : i < msgs.length) :
    byIssuer i (runBatch w a sched msgs moved).2.trace = [] ∨
      byIssuer i (runBatch w a sched msgs moved).2.trace =
        [.send i (sendInput w msgs[i]), .add i, .delete i (deleteInput w msgs[i])] := by
  have hfin := runBatch_finished w a sched msgs moved i msgs[i] (List.getElem?_eq_getElem hi)
  rcases (finished_cases w a i _ _ hfin).2.2 (hs i) with h | h
  · exact Or.inl h
  · right
    rw [h]
    simp [movedTrace, returned, hd]

/-- A batch in which every body matches and every call succeeds, and which
cannot overflow the counter, under any interleaving: the counter grows by the
number of sends, every message sent is deleted, and either the limit is reached
at the end or every message of the batch was sent. -/
theorem runBatch_bounds (w : Worker) (a : Answers) (hall : ∀ s, w.includeRegex s = true)
    (hs : ∀ k, a.sendErr k = none) (hd : ∀ k, a.deleteErr k = none)
    (sched : List Nat) (msgs : List Message) (moved : Int)
    (hlo : -9223372036854775808 ≤ moved)
    (hhi : moved + msgs.length < 9223372036854775808) :
    (runBatch w a sched msgs moved).2.messagesMoved =
        moved + (sentInputs (runBatch w a sched msgs moved).2.trace).length ∧
      (deletedInputs (runBatch w a sched msgs moved).2.trace).length =
        (sentInputs (runBatch w a sched msgs moved).2.trace).length ∧
      (sentInputs (runBatch w a sched msgs moved).2.trace).length ≤ msgs.length ∧
      (limitReached w.limit (runBatch w a sched msgs moved).2.messagesMoved = true ∨
        (sentInputs (runBatch w a sched msgs moved).2.trace).length = msgs.length) := by
  have hcount := runBatch_counter w a sched msgs moved
  have hown := runBatch_owned w a sched msgs moved
  have hcase := runBatch_moved_or_nil w a hs hd sched msgs moved
  rw [succSends_eq a hs] at hcount
  rw [sentInputs_length, deletedInputs_length]
  have hsend := countP_by_issuer Event.isSend msgs.length _ hown
  have hdel := countP_by_issuer Event.isDelete msgs.length _ hown
  refine ⟨?_, ?_, hcount.2.2, ?_⟩
  · rw [hcount.1]
    apply bump_iterate _ _ hlo
    have := hcount.2.2
    omega
  · rw [hsend, hdel]
    apply Finset.sum_congr rfl
    intro i hi
    rcases hcase i (Finset.mem_range.mp hi) with h | h <;> rw [h] <;>
      simp [Event.isSend, Event.isDelete]
  · by_cases hex : ∃ i, i < msgs.length ∧ byIssuer i (runBatch w a sched msgs moved).2.trace = []
    · left
      obtain ⟨i, hi, hnil⟩ := hex
      have hrej := runBatch_keeps w a (RejInv w a moved) (rejInv_stepClosed w a moved hall)
        sched msgs moved
        ⟨countInv_spawn a moved msgs, hlo, by simpa [spawnFrom_length] using hhi, by
          intro g hg hpc
          rw [spawnFrom_pc msgs 0 g hg] at hpc
          exact absurd hpc (by decide)⟩
      have hmem := spawnFrom_mem msgs 0 i msgs[i] (List.getElem?_eq_getElem hi)
      rw [← runBatch_skeleton w a sched msgs moved, List.mem_map] at hmem
      obtain ⟨g, hg, hkey⟩ := hmem
      simp only [Prod.mk.injEq, zero_add] at hkey
      exact hrej.2.2.2 g hg (runBatch_done w a sched msgs moved g hg) (by rw [hkey.1]; exact hnil)
    · right
      rw [hsend]
      have hone : ∀ i ∈ Finset.range msgs.length,
          (byIssuer i (runBatch w a sched msgs moved).2.trace).countP Event.isSend = 1 := by
        intro i hi
        rcases hcase i (Finset.mem_range.mp hi) with h | h
        · exact absurd ⟨i, Finset.mem_range.mp hi, h⟩ hex
        · rw [h]; simp [Event.isSend]
      rw [Finset.sum_congr rfl hone]
      simp

/-- A batch does not fetch. -/
theorem runBatch_fetchCount (w : Worker) (a : Answers) (sched : List Nat) (msgs : List Message)
    (moved : Int) : fetchCount (runBatch w a sched msgs moved).2.trace = 0 := by
  apply fetchCount_of_issued
  intro e he
  obtain ⟨i, _, hi⟩ := runBatch_owned w a sched msgs moved e he
  exact ⟨i, hi⟩

/-- In a batch that cannot overflow the counter, the counter never decreases
along the schedule, up to the join. -/
theorem runBatch_monotone (w : Worker) (a : Answers) (s1 s2 : List Nat) (msgs : List Message)
    (moved : Int) (hlo : -9223372036854775808 ≤ moved)
    (hhi : moved + msgs.length < 9223372036854775808) :
    moved ≤ (runSchedule w a s1 (spawnFrom 0 msgs)
        { messagesMoved := moved, trace := [] }).2.messagesMoved ∧
    (runSchedule w a s1 (spawnFrom 0 msgs)
        { messagesMoved := moved, trace := [] }).2.messagesMoved ≤
      (runSchedule w a (s1 ++ s2) (spawnFrom 0 msgs)
        { messagesMoved := moved, trace := [] }).2.messagesMoved ∧
    (runSchedule w a (s1 ++ s2) (spawnFrom 0 msgs)
        { messagesMoved := moved, trace := [] }).2.messagesMoved ≤
      (runBatch w a (s1 ++ s2) msgs moved).2.messagesMoved := by
  have hstart : ∀ x, x ≤ moved → MonoInv a moved x (spawnFrom 0 msgs)
      { messagesMoved := moved, trace := [] } :=
    fun x hx => ⟨countInv_spawn a moved msgs, hlo, by simpa [spawnFrom_length] using hhi, hx⟩
  have h1 := runSchedule_keeps w a _ (monoInv_stepClosed w a moved moved) s1 _ _
    (hstart moved (le_refl _))
  refine ⟨h1.2.2.2, ?_, ?_⟩
  · rw [runSchedule_append]
    have h2 := runSchedule_keeps w a _ (monoInv_stepClosed w a moved
      (runSchedule w a s1 (spawnFrom 0 msgs)
        { messagesMoved := moved, trace := [] }).2.messagesMoved) s2 _ _
      ⟨h1.1, h1.2.1, h1.2.2.1, le_refl _⟩
    exact h2.2.2.2
  · have h3 := runSchedule_keeps w a _ (monoInv_stepClosed w a moved moved) (s1 ++ s2) _ _
      (hstart moved (le_refl _))
    have h3' : MonoInv a moved
        (runSchedule w a (s1 ++ s2) (spawnFrom 0 msgs)
          { messagesMoved := moved, trace := [] }).2.messagesMoved
        (runSchedule w a (s1 ++ s2) (spawnFrom 0 msgs) { messagesMoved := moved, trace := [] }).1
        (runSchedule w a (s1 ++ s2) (spawnFrom 0 msgs) { messagesMoved := moved, trace := [] }).2 :=
      ⟨h3.1, h3.2.1, h3.2.2.1, le_refl _⟩
    have h4 := drain_keeps w a _ (monoInv_stepClosed w a moved
      (runSchedule w a (s1 ++ s2) (spawnFrom 0 msgs)
        { messagesMoved := moved, trace := [] }).2.messagesMoved) _ [] _ h3'
    unfold runBatch
    exact h4.2.2.2

/-- A batch in which every body matches and every call succeeds, under any
interleaving: the sends and the deletes are, up to the order, those of some of
the messages of the batch, each taken once. -/
theorem runBatch_moved (w : Worker) (a : Answers) (hs : ∀ k, a.sendErr k = none)
    (hd : ∀ k, a.deleteErr k = none) (sched : List Nat) (msgs : List Message) (moved : Int) :
    ∃ ms : List Message, ms.Sublist msgs ∧
      (sentInputs (runBatch w a sched msgs moved).2.trace).Perm (ms.map (sendInput w)) ∧
      (deletedInputs (runBatch w a sched msgs moved).2.trace).Perm (ms.map (deleteInput w)) := by
  have hgood := runBatch_keeps w a (GoodAll w a) (goodAll_stepClosed w a) sched msgs moved (by
    refine ⟨?_, ?_⟩
    · rw [spawnFrom_ids]; exact List.nodup_range' _ _
    · intro g hg
      simp [Good, spawnFrom_pc msgs 0 g hg, byIssuer])
  have hown := runBatch_keeps w a Owned (owned_stepClosed w a) sched msgs moved (by
    intro e he; simp at he)
  have hskel := runBatch_skeleton w a sched msgs moved
  have hm : (runBatch w a sched msgs moved).1.map (fun g => g.m) = msgs := by
    have := congrArg (List.map Prod.snd) hskel
    simp only [List.map_map] at this
    exact this.trans (spawnFrom_msgs msgs 0)
  have hcases : ∀ g ∈ (runBatch w a sched msgs moved).1,
      byIssuer g.id (runBatch w a sched msgs moved).2.trace = [] ∨
        byIssuer g.id (runBatch w a sched msgs moved).2.trace =
          [.send g.id (sendInput w g.m), .add g.id, .delete g.id (deleteInput w g.m)] := by
    intro g hg
    have hfin := hgood.2 g hg
    simp only [Good, runBatch_done w a sched msgs moved g hg] at hfin
    rcases (finished_cases w a g.id g.m _
      (finished_of_eq w a g g.id g.m _ rfl rfl hfin)).2.2 (hs g.id) with h | h
    · exact Or.inl h
    · right
      rw [h]
      simp [movedTrace, returned, hd]
  have hperm := perm_flatMap_byIssuer _ hgood.1 _ hown
  obtain ⟨f1, f2⟩ := flatMap_moved w _ _ hcases
  refine ⟨movedMessages (runBatch w a sched msgs moved).1 (runBatch w a sched msgs moved).2.trace,
    ?_, ?_, ?_⟩
  · have hsub := List.Sublist.map (fun g : Goroutine => g.m)
      (List.filter_sublist (p := fun g =>
        !(byIssuer g.id (runBatch w a sched msgs moved).2.trace).isEmpty)
        (runBatch w a sched msgs moved).1)
    rw [hm] at hsub
    exact hsub
  · rw [← f1]
    exact sentInputs_perm _ _ hperm
  · rw [← f2]
    exact deletedInputs_perm _ _ hperm

/-! ## The answers to the deletes do not matter -/

/-- Two steps of the same goroutine from states that agree up to log lines, under answers that agree on the sends, agree up to log lines. -/
theorem pipeStep_sameButLogs (w : Worker) (a b : Answers) (hab : a.sendErr = b.sendErr)
    (g : Goroutine) (s t : Shared) (h : SameButLogs s t) :
    (pipeStep w a g s).1 = (pipeStep w b g t).1 ∧
      SameButLogs (pipeStep w a g s).2 (pipeStep w b g t).2 := by
  obtain ⟨id, m, pc⟩ := g
  obtain ⟨h1, h2⟩ := h
  cases pc
  · by_cases hm : w.includeRegex m.body = true <;> simp [pipeStep, hm, SameButLogs, h1, h2]
  · by_cases hl : limitReached w.limit t.messagesMoved = true <;>
      simp [pipeStep, hl, SameButLogs, h1, h2]
  · cases hs : b.sendErr id <;>
      simp [pipeStep, hab, hs, SameButLogs, Shared.emit, h1, h2, Event.notLog]
  · simp [pipeStep, SameButLogs, h1, h2, Event.notLog]
  · cases hs : a.deleteErr id <;> cases ht : b.deleteErr id <;>
      simp [pipeStep, hs, ht, SameButLogs, Shared.emit, h1, h2, Event.notLog]
  · simp [pipeStep, SameButLogs, h1, h2]

/-- The same for the step of the goroutine at a position. -/
theorem stepAt_sameButLogs (w : Worker) (a b : Answers) (hab : a.sendErr = b.sendErr)
    (i : Nat) (gs : List Goroutine) :
    ∀ (s t : Shared), SameButLogs s t →
      (stepAt w a i gs s).1 = (stepAt w b i gs t).1 ∧
        SameButLogs (stepAt w a i gs s).2 (stepAt w b i gs t).2 := by
  induction gs generalizing i with
  | nil => intro s t h; cases i <;> simpa [stepAt] using h
  | cons g gs ih =>
    intro s t h
    cases i with
    | zero =>
      have := pipeStep_sameButLogs w a b hab g s t h
      simpa [stepAt] using this
    | succ i =>
      have := ih i s t h
      simpa [stepAt] using this

/-- The same for a schedule. -/
theorem runSchedule_sameButLogs (w : Worker) (a b : Answers) (hab : a.sendErr = b.sendErr)
    (sched : List Nat) :
    ∀ (gs : List Goroutine) (s t : Shared), SameButLogs s t →
      (runSchedule w a sched gs s).1 = (runSchedule w b sched gs t).1 ∧
        SameButLogs (runSchedule w a sched gs s).2 (runSchedule w b sched gs t).2 := by
  induction sched with
  | nil => intro gs s t h; simpa [runSchedule] using h
  | cons i sched ih =>
    intro gs s t h
    have h1 := stepAt_sameButLogs w a b hab i gs s t h
    simp only [runSchedule]
    rw [h1.1]
    exact ih _ _ _ h1.2

/-- The step lemma on pairs of a goroutine and a shared state. -/
theorem pipeStep_lockstep (w : Worker) (a b : Answers) (hab : a.sendErr = b.sendErr)
    (x y : Goroutine × Shared) (h : x.1 = y.1 ∧ SameButLogs x.2 y.2) :
    (pipeStep w a x.1 x.2).1 = (pipeStep w b y.1 y.2).1 ∧
      SameButLogs (pipeStep w a x.1 x.2).2 (pipeStep w b y.1 y.2).2 := by
  rw [h.1]
  exact pipeStep_sameButLogs w a b hab y.1 x.2 y.2 h.2

/-- The same for a goroutine run to its end. -/
theorem finish_sameButLogs (w : Worker) (a b : Answers) (hab : a.sendErr = b.sendErr)
    (g : Goroutine) (s t : Shared) (h : SameButLogs s t) :
    (finish w a g s).1 = (finish w b g t).1 ∧
      SameButLogs (finish w a g s).2 (finish w b g t).2 := by
  unfold finish
  exact pipeStep_lockstep w a b hab _ _ (pipeStep_lockstep w a b hab _ _
    (pipeStep_lockstep w a b hab _ _ (pipeStep_lockstep w a b hab _ _
      (pipeStep_lockstep w a b hab (g, s) (g, t) ⟨rfl, h⟩))))

/-- The same for the drain. -/
theorem drain_sameButLogs (w : Worker) (a b : Answers) (hab : a.sendErr = b.sendErr)
    (gs : List Goroutine) :
    ∀ (s t : Shared), SameButLogs s t →
      (drain w a gs s).1 = (drain w b gs t).1 ∧
        SameButLogs (drain w a gs s).2 (drain w b gs t).2 := by
  induction gs with
  | nil => intro s t h; simpa [drain] using h
  | cons g gs ih =>
    intro s t h
    have h1 := finish_sameButLogs w a b hab g s t h
    have h2 := ih _ _ h1.2
    simp only [drain]
    rw [h1.1, h2.1]
    exact ⟨rfl, h2.2⟩

/-- The answers to the deletes change nothing of a batch but its log lines. -/
theorem runBatch_sameButLogs (w : Worker) (a b : Answers) (hab : a.sendErr = b.sendErr)
    (sched : List Nat) (msgs : List Message) (moved : Int) :
    SameButLogs (runBatch w a sched msgs moved).2 (runBatch w b sched msgs moved).2 := by
  unfold runBatch
  have h1 := runSchedule_sameButLogs w a b hab sched (spawnFrom 0 msgs)
    { messagesMoved := moved, trace := [] } { messagesMoved := moved, trace := [] }
    ⟨rfl, rfl⟩
  have h2 := drain_sameButLogs w a b hab
    (runSchedule w a sched (spawnFrom 0 msgs) { messagesMoved := moved, trace := [] }).1 _ _ h1.2
  simp only
  rw [← h1.1]
  exact h2.2

/-! ## A batch run one goroutine after another -/

/-- A batch whose goroutines run one after another, every message matching and
every call succeeding, with `d` messages left before the limit: the first `d`
messages are sent, counted and deleted, the others are left alone. -/
theorem drain_serial (w : Worker) (a : Answers) (hall : ∀ s, w.includeRegex s = true)
    (hs : ∀ k, a.sendErr k = none) (hd : ∀ k, a.deleteErr k = none)
    (h0 : 0 ≤ w.limit) (h1 : w.limit < 9223372036854775808) (msgs : List Message) :
    ∀ (k d : Nat) (sh : Shared), 0 ≤ sh.messagesMoved → sh.messagesMoved + d = w.limit →
      (drain w a (spawnFrom k msgs) sh).2.messagesMoved =
          sh.messagesMoved + (min d msgs.length : Nat) ∧
        sentInputs (drain w a (spawnFrom k msgs) sh).2.trace =
          sentInputs sh.trace ++ (msgs.take d).map (sendInput w) ∧
        deletedInputs (drain w a (spawnFrom k msgs) sh).2.trace =
          deletedInputs sh.trace ++ (msgs.take d).map (deleteInput w) := by
  induction msgs with
  | nil => intro k d sh _ _; simp [spawnFrom, drain]
  | cons m ms ih =>
    intro k d sh hc hlim
    simp only [spawnFrom, drain]
    cases d with
    | zero =>
      have hl : limitReached w.limit sh.messagesMoved = true :=
        (limitReached_iff _ _ h0 h1).mpr (by simp at hlim; omega)
      rw [finish_skips w a k m sh (hall _) hl]
      have := ih (k + 1) 0 sh hc hlim
      simpa using this
    | succ d =>
      have hl : limitReached w.limit sh.messagesMoved = false := by
        rw [← Bool.not_eq_true, limitReached_iff _ _ h0 h1]
        push_cast at hlim
        omega
      rw [finish_moves w a k m sh (hall _) hl (hs k) (hd k)]
      have hb : bump sh.messagesMoved = sh.messagesMoved + 1 :=
        bump_eq _ (by omega) (by push_cast at hlim; omega)
      have := ih (k + 1) d
        { messagesMoved := bump sh.messagesMoved,
          trace := sh.trace ++ [.send k (sendInput w m), .add k, .delete k (deleteInput w m)] }
        (by simp only [hb]; omega) (by simp only [hb]; push_cast at hlim; omega)
      simp only [hb] at this ⊢
      obtain ⟨t1, t2, t3⟩ := this
      refine ⟨?_, ?_, ?_⟩
      · rw [t1]
        simp only [List.length_cons, Nat.succ_min_succ]
        push_cast
        ring
      · rw [t2]
        simp [sentInputs_append, sentInputs]
      · rw [t3]
        simp [deletedInputs_append, deletedInputs]

/-- Five steps of the goroutine at position `i` keep `SerialOk`. -/
theorem block_serialOk (w : Worker) (a : Answers) (hall : ∀ s, w.includeRegex s = true)
    (hs : ∀ k, a.sendErr k = none) (hd : ∀ k, a.deleteErr k = none)
    (h0 : 0 ≤ w.limit) (h1 : w.limit < 9223372036854775808) (gs : List Goroutine) :
    ∀ (i : Nat) (sh : Shared), SerialOk w gs sh →
      SerialOk w (runSchedule w a [i, i, i, i, i] gs sh).1
        (runSchedule w a [i, i, i, i, i] gs sh).2 := by
  induction gs with
  | nil => intro i sh h; simpa [runSchedule, stepAt] using h
  | cons g gs ih =>
    intro i sh h
    cases i with
    | zero =>
      have hf := finish_serialOk w a hall hs hd h0 h1 g sh (h.1 g (by simp)) h.2.1 h.2.2
      have heq : runSchedule w a [0, 0, 0, 0, 0] (g :: gs) sh =
          ((finish w a g sh).1 :: gs, (finish w a g sh).2) := rfl
      rw [heq]
      refine ⟨?_, hf.2.1, hf.2.2⟩
      intro g1 hg1
      simp only [List.mem_cons] at hg1
      rcases hg1 with rfl | hg1
      · exact hf.1
      · exact h.1 g1 (by simp [hg1])
    | succ i =>
      have heq : runSchedule w a [i + 1, i + 1, i + 1, i + 1, i + 1] (g :: gs) sh =
          (g :: (runSchedule w a [i, i, i, i, i] gs sh).1,
            (runSchedule w a [i, i, i, i, i] gs sh).2) := rfl
      rw [heq]
      have ht := ih i sh ⟨fun g1 hg1 => h.1 g1 (by simp [hg1]), h.2.1, h.2.2⟩
      refine ⟨?_, ht.2.1, ht.2.2⟩
      intro g1 hg1
      simp only [List.mem_cons] at hg1
      rcases hg1 with rfl | hg1
      · exact h.1 _ (by simp)
      · exact ht.1 g1 hg1

/-- A schedule of goroutines run one after another keeps `SerialOk`. -/
theorem serialSchedule_serialOk (w : Worker) (a : Answers) (hall : ∀ s, w.includeRegex s = true)
    (hs : ∀ k, a.sendErr k = none) (hd : ∀ k, a.deleteErr k = none)
    (h0 : 0 ≤ w.limit) (h1 : w.limit < 9223372036854775808) (order : List Nat) :
    ∀ (gs : List Goroutine) (sh : Shared), SerialOk w gs sh →
      SerialOk w (runSchedule w a (serialSchedule order) gs sh).1
        (runSchedule w a (serialSchedule order) gs sh).2 := by
  induction order with
  | nil => intro gs sh h; simpa [serialSchedule, runSchedule] using h
  | cons i order ih =>
    intro gs sh h
    simp only [serialSchedule]
    rw [runSchedule_append]
    exact ih _ _ (block_serialOk w a hall hs hd h0 h1 gs i sh h)

/-- The join of goroutines that are at their start or returned keeps the counter between 0 and the limit. -/
theorem drain_serialOk (w : Worker) (a : Answers) (hall : ∀ s, w.includeRegex s = true)
    (hs : ∀ k, a.sendErr k = none) (hd : ∀ k, a.deleteErr k = none)
    (h0 : 0 ≤ w.limit) (h1 : w.limit < 9223372036854775808) (gs : List Goroutine) :
    ∀ (sh : Shared), SerialOk w gs sh →
      0 ≤ (drain w a gs sh).2.messagesMoved ∧ (drain w a gs sh).2.messagesMoved ≤ w.limit := by
  induction gs with
  | nil => intro sh h; exact ⟨h.2.1, h.2.2⟩
  | cons g gs ih =>
    intro sh h
    have hf := finish_serialOk w a hall hs hd h0 h1 g sh (h.1 g (by simp)) h.2.1 h.2.2
    simp only [drain]
    exact ih _ ⟨fun g1 hg1 => h.1 g1 (by simp [hg1]), hf.2.1, hf.2.2⟩

/-- A batch whose goroutines run one after another, in any order, every body
matching and every call succeeding, does not take the counter past the limit. -/
theorem runBatch_serial_le (w : Worker) (a : Answers) (hall : ∀ s, w.includeRegex s = true)
    (hs : ∀ k, a.sendErr k = none) (hd : ∀ k, a.deleteErr k = none)
    (h0 : 0 ≤ w.limit) (h1 : w.limit < 9223372036854775808) (order : List Nat)
    (msgs : List Message) (moved : Int) (hc : 0 ≤ moved) (hL : moved ≤ w.limit) :
    (runBatch w a (serialSchedule order) msgs moved).2.messagesMoved ≤ w.limit := by
  unfold runBatch
  have hstart : SerialOk w (spawnFrom 0 msgs) { messagesMoved := moved, trace := [] } :=
    ⟨fun g hg => Or.inl (spawnFrom_pc msgs 0 g hg), hc, hL⟩
  exact (drain_serialOk w a hall hs hd h0 h1 _ _
    (serialSchedule_serialOk w a hall hs hd h0 h1 order _ _ hstart)).2

/-! ## The worker loop -/

/-- The loop with no round left is about to fetch. -/
theorem transferLoop_nil (w : Worker) (last : Nat) (sh : Shared) :
    transferLoop w [] last sh = (.running last, sh) := rfl

/-- A pass whose fetch fails: the worker panics right after the fetch. -/
theorem transferLoop_error (w : Worker) (r : Round) (rest : List Round) (last : Nat) (sh : Shared)
    (err : String) (h : r.resp = .error err) :
    transferLoop w (r :: rest) last sh = (.panicked err, sh.emit (.receive w.rmin)) := by
  simp [transferLoop, h]

/-- A pass that finds the limit reached: the worker returns right after the fetch. -/
theorem transferLoop_limit (w : Worker) (r : Round) (rest : List Round) (last : Nat) (sh : Shared)
    (msgs : List Message) (h : r.resp = .ok msgs)
    (hl : limitReached w.limit sh.messagesMoved = true) :
    transferLoop w (r :: rest) last sh =
      (.done, (sh.emit (.receive w.rmin)).emit (.logLine none "done")) := by
  simp [transferLoop, h, Shared.emit, hl]

/-- A pass with an empty fetch after an empty fetch: the worker returns. -/
theorem transferLoop_empty (w : Worker) (r : Round) (rest : List Round) (sh : Shared)
    (h : r.resp = .ok []) :
    transferLoop w (r :: rest) 0 sh =
      (.done, (sh.emit (.receive w.rmin)).emit (.logLine none "done")) := by
  simp [transferLoop, h]

/-- A pass that goes on: the batch is run and the loop continues. -/
theorem transferLoop_go (w : Worker) (r : Round) (rest : List Round) (last : Nat) (sh : Shared)
    (msgs : List Message) (h : r.resp = .ok msgs)
    (hl : limitReached w.limit sh.messagesMoved = false)
    (he : last ≠ 0 ∨ msgs ≠ []) :
    transferLoop w (r :: rest) last sh =
      transferLoop w rest msgs.length (processBatch w r msgs (sh.emit (.receive w.rmin))) := by
  have : ¬ (last = 0 ∧ msgs = []) := by
    rintro ⟨h1, h2⟩; rcases he with he | he <;> contradiction
  simp [transferLoop, h, Shared.emit, hl, this]

/-- Running the loop over `pre ++ rest` is running it over `pre` and, if it is
still running then, over `rest`. -/
theorem transferLoop_append (w : Worker) (pre rest : List Round) :
    ∀ (last : Nat) (sh : Shared),
      transferLoop w (pre ++ rest) last sh =
        match transferLoop w pre last sh with
        | (.running l, sh1) => transferLoop w rest l sh1
        | res => res := by
  induction pre with
  | nil => intro last sh; simp [transferLoop]
  | cons r pre ih =>
    intro last sh
    cases hr : r.resp with
    | error err =>
      simp [transferLoop_error w r _ last sh err hr]
    | ok msgs =>
      by_cases hl : limitReached w.limit sh.messagesMoved = true
      · simp [transferLoop_limit w r _ last sh msgs hr hl]
      · simp only [Bool.not_eq_true] at hl
        by_cases he : last = 0 ∧ msgs = []
        · obtain ⟨h1, h2⟩ := he
          subst h1; subst h2
          simp [transferLoop_empty w r _ sh hr]
        · have he2 : last ≠ 0 ∨ msgs ≠ [] := by
            by_cases h0 : last = 0
            · right; intro hm; exact he ⟨h0, hm⟩
            · left; exact h0
          rw [List.cons_append, transferLoop_go w r _ last sh msgs hr hl he2,
            transferLoop_go w r _ last sh msgs hr hl he2]
          exact ih _ _

/-- A loop still running after `pre` continues with `rest`. -/
theorem transferLoop_append_running (w : Worker) (pre rest : List Round) (last l : Nat)
    (sh sh1 : Shared) (h : transferLoop w pre last sh = (.running l, sh1)) :
    transferLoop w (pre ++ rest) last sh = transferLoop w rest l sh1 := by
  rw [transferLoop_append, h]

/-- A loop that returned during `pre` ignores `rest`. -/
theorem transferLoop_append_done (w : Worker) (pre rest : List Round) (last : Nat)
    (sh : Shared) (h : (transferLoop w pre last sh).1 = .done) :
    transferLoop w (pre ++ rest) last sh = transferLoop w pre last sh := by
  rw [transferLoop_append]
  cases hres : transferLoop w pre last sh with
  | mk o s =>
    rw [hres] at h
    simp only at h
    subst h
    rfl

/-- A loop that is still running has seen no fetch error, and its
`lastMessageCount` is the size of the last batch fetched. -/
theorem transferLoop_running_last (w : Worker) (pre : List Round) :
    ∀ (last l : Nat) (sh sh1 : Shared), transferLoop w pre last sh = (.running l, sh1) →
      (pre = [] ∧ l = last) ∨
        ∃ pre1 r msgs, pre = pre1 ++ [r] ∧ r.resp = .ok msgs ∧ l = msgs.length := by
  induction pre with
  | nil =>
    intro last l sh sh1 h
    simp only [transferLoop_nil, Prod.mk.injEq, Outcome.running.injEq] at h
    exact Or.inl ⟨rfl, h.1.symm⟩
  | cons r pre ih =>
    intro last l sh sh1 h
    right
    cases hr : r.resp with
    | error err => simp [transferLoop_error w r _ last sh err hr] at h
    | ok msgs =>
      by_cases hl : limitReached w.limit sh.messagesMoved = true
      · simp [transferLoop_limit w r _ last sh msgs hr hl] at h
      · simp only [Bool.not_eq_true] at hl
        by_cases he : last = 0 ∧ msgs = []
        · obtain ⟨h1, h2⟩ := he
          subst h1; subst h2
          simp [transferLoop_empty w r _ sh hr] at h
        · have he2 : last ≠ 0 ∨ msgs ≠ [] := by
            by_cases h0 : last = 0
            · right; intro hm; exact he ⟨h0, hm⟩
            · left; exact h0
          rw [transferLoop_go w r _ last sh msgs hr hl he2] at h
          rcases ih _ _ _ _ h with ⟨h1, h2⟩ | ⟨pre1, r1, msgs1, h1, h2, h3⟩
          · exact ⟨[], r, msgs, by simp [h1], hr, h2⟩
          · exact ⟨r :: pre1, r1, msgs1, by simp [h1], h2, h3⟩

/-- The rest of a pass, after the fetch, does not fetch. -/
theorem processBatch_fetchCount (w : Worker) (r : Round) (msgs : List Message) (sh : Shared) :
    fetchCount (processBatch w r msgs sh).trace = fetchCount sh.trace := by
  simp [processBatch, Shared.emit, fetchCount_append, runBatch_fetchCount, fetchCount]

/-- A loop that is still running has fetched once per round. -/
theorem transferLoop_running_fetchCount (w : Worker) (pre : List Round) :
    ∀ (last l : Nat) (sh sh1 : Shared), transferLoop w pre last sh = (.running l, sh1) →
      fetchCount sh1.trace = fetchCount sh.trace + pre.length := by
  induction pre with
  | nil =>
    intro last l sh sh1 h
    simp only [transferLoop_nil, Prod.mk.injEq] at h
    simp [h.2]
  | cons r pre ih =>
    intro last l sh sh1 h
    cases hr : r.resp with
    | error err => simp [transferLoop_error w r _ last sh err hr] at h
    | ok msgs =>
      by_cases hl : limitReached w.limit sh.messagesMoved = true
      · simp [transferLoop_limit w r _ last sh msgs hr hl] at h
      · simp only [Bool.not_eq_true] at hl
        by_cases he : last = 0 ∧ msgs = []
        · obtain ⟨h1, h2⟩ := he
          subst h1; subst h2
          simp [transferLoop_empty w r _ sh hr] at h
        · have he2 : last ≠ 0 ∨ msgs ≠ [] := by
            by_cases h0 : last = 0
            · right; intro hm; exact he ⟨h0, hm⟩
            · left; exact h0
          rw [transferLoop_go w r _ last sh msgs hr hl he2] at h
          rw [ih _ _ _ _ h, processBatch_fetchCount]
          simp [Shared.emit, fetchCount_append, fetchCount]
          omega

/-- A loop panics exactly when it reaches a round whose fetch fails. -/
theorem transferLoop_panicked_iff (w : Worker) (err : String) (rounds : List Round) :
    ∀ (last : Nat) (sh : Shared),
      (transferLoop w rounds last sh).1 = .panicked err ↔
        ∃ pre r rest l sh1, rounds = pre ++ r :: rest ∧
          transferLoop w pre last sh = (.running l, sh1) ∧ r.resp = .error err := by
  induction rounds with
  | nil =>
    intro last sh
    simp [transferLoop_nil]
  | cons r rounds ih =>
    intro last sh
    constructor
    · intro h
      cases hr : r.resp with
      | error e =>
        rw [transferLoop_error w r _ last sh e hr] at h
        simp only [Outcome.panicked.injEq] at h
        subst h
        exact ⟨[], r, rounds, last, sh, rfl, rfl, hr⟩
      | ok msgs =>
        by_cases hl : limitReached w.limit sh.messagesMoved = true
        · simp [transferLoop_limit w r _ last sh msgs hr hl] at h
        · simp only [Bool.not_eq_true] at hl
          by_cases he : last = 0 ∧ msgs = []
          · obtain ⟨h1, h2⟩ := he
            subst h1; subst h2
            simp [transferLoop_empty w r _ sh hr] at h
          · have he2 : last ≠ 0 ∨ msgs ≠ [] := by
              by_cases h0 : last = 0
              · right; intro hm; exact he ⟨h0, hm⟩
              · left; exact h0
            rw [transferLoop_go w r _ last sh msgs hr hl he2] at h
            obtain ⟨pre, r1, rest, l, sh1, h1, h2, h3⟩ := (ih _ _).mp h
            refine ⟨r :: pre, r1, rest, l, sh1, by simp [h1], ?_, h3⟩
            rw [transferLoop_go w r _ last sh msgs hr hl he2]
            exact h2
    · rintro ⟨pre, r1, rest, l, sh1, h1, h2, h3⟩
      rw [h1, transferLoop_append_running w pre _ last l sh sh1 h2,
        transferLoop_error w r1 rest l sh1 err h3]

/-- The messages fetched in rounds made of two parts. -/
theorem fetched_append (pre rest : List Round) :
    fetched (pre ++ rest) = fetched pre + fetched rest := by
  induction pre with
  | nil => simp [fetched]
  | cons r pre ih =>
    show _ + fetched (pre ++ rest) = fetched (r :: pre) + fetched rest
    rw [ih]
    simp only [fetched]
    omega

/-- A pass that goes on, in a batch that cannot overflow the counter: the counter
grows by the number of successful sends of the batch, which is the number of
increments the pass adds to the trace. -/
theorem processBatch_counter (w : Worker) (r : Round) (msgs : List Message) (sh : Shared)
    (hlo : -9223372036854775808 ≤ sh.messagesMoved)
    (hhi : sh.messagesMoved + msgs.length < 9223372036854775808) :
    (processBatch w r msgs (sh.emit (.receive w.rmin))).messagesMoved =
        sh.messagesMoved +
          succSends r.answers (runBatch w r.answers r.sched msgs sh.messagesMoved).2.trace ∧
      addCount (processBatch w r msgs (sh.emit (.receive w.rmin))).trace =
        addCount sh.trace +
          succSends r.answers (runBatch w r.answers r.sched msgs sh.messagesMoved).2.trace ∧
      succSends r.answers (runBatch w r.answers r.sched msgs sh.messagesMoved).2.trace ≤
        msgs.length := by
  obtain ⟨h1, h2, h3⟩ := runBatch_counter w r.answers r.sched msgs sh.messagesMoved
  refine ⟨?_, ?_, h3⟩
  · simp only [processBatch, Shared.emit]
    rw [h1]
    exact bump_iterate _ _ hlo (by omega)
  · simp only [processBatch, Shared.emit, addCount_append, h2]
    simp [addCount]

/-- The loop, over rounds that cannot overflow the counter: the counter grows by
the number of increments the loop adds to the trace, at most one per message
fetched. -/
theorem transferLoop_counter (w : Worker) (rounds : List Round) :
    ∀ (last : Nat) (sh : Shared), -9223372036854775808 ≤ sh.messagesMoved →
      sh.messagesMoved + fetched rounds < 9223372036854775808 →
      ∃ k : Nat, (transferLoop w rounds last sh).2.messagesMoved = sh.messagesMoved + k ∧
        addCount (transferLoop w rounds last sh).2.trace = addCount sh.trace + k ∧
        k ≤ fetched rounds := by
  induction rounds with
  | nil =>
    intro last sh _ _
    exact ⟨0, by simp [transferLoop_nil], by simp [transferLoop_nil], le_refl _⟩
  | cons r rounds ih =>
    intro last sh hlo hhi
    cases hr : r.resp with
    | error err =>
      rw [transferLoop_error w r _ last sh err hr]
      exact ⟨0, by simp [Shared.emit], by simp [Shared.emit, addCount_append, addCount], by omega⟩
    | ok msgs =>
      simp only [fetched, hr] at hhi ⊢
      by_cases hl : limitReached w.limit sh.messagesMoved = true
      · rw [transferLoop_limit w r _ last sh msgs hr hl]
        exact ⟨0, by simp [Shared.emit], by simp [Shared.emit, addCount_append, addCount],
          by omega⟩
      · simp only [Bool.not_eq_true] at hl
        by_cases he : last = 0 ∧ msgs = []
        · obtain ⟨h1, h2⟩ := he
          subst h1; subst h2
          rw [transferLoop_empty w r _ sh hr]
          exact ⟨0, by simp [Shared.emit], by simp [Shared.emit, addCount_append, addCount],
            by omega⟩
        · have he2 : last ≠ 0 ∨ msgs ≠ [] := by
            by_cases h0 : last = 0
            · right; intro hm; exact he ⟨h0, hm⟩
            · left; exact h0
          rw [transferLoop_go w r _ last sh msgs hr hl he2]
          push_cast at hhi
          obtain ⟨p1, p2, p3⟩ := processBatch_counter w r msgs sh hlo (by omega)
          obtain ⟨k, k1, k2, k3⟩ := ih msgs.length
            (processBatch w r msgs (sh.emit (.receive w.rmin))) (by omega) (by omega)
          exact ⟨succSends r.answers
            (runBatch w r.answers r.sched msgs sh.messagesMoved).2.trace + k,
            by push_cast; omega, by omega, by omega⟩

/-- The loop, over rounds that cannot overflow the counter, never decreases the
counter: it is at least its starting value after every prefix of the rounds,
and it does not decrease when more rounds are run. -/
theorem transferLoop_monotone (w : Worker) (pre rest : List Round) (last : Nat) (sh : Shared)
    (hlo : -9223372036854775808 ≤ sh.messagesMoved)
    (hhi : sh.messagesMoved + fetched (pre ++ rest) < 9223372036854775808) :
    sh.messagesMoved ≤ (transferLoop w pre last sh).2.messagesMoved ∧
      (transferLoop w pre last sh).2.messagesMoved ≤
        (transferLoop w (pre ++ rest) last sh).2.messagesMoved := by
  rw [fetched_append] at hhi
  obtain ⟨k, k1, _, k3⟩ := transferLoop_counter w pre last sh hlo (by push_cast at hhi; omega)
  refine ⟨by omega, ?_⟩
  rw [transferLoop_append]
  cases hres : transferLoop w pre last sh with
  | mk o s =>
    rw [hres] at k1
    simp only at k1
    cases o with
    | done => simp
    | panicked err => simp
    | running l =>
      simp only
      obtain ⟨j, j1, _, _⟩ := transferLoop_counter w rest l s (by omega)
        (by rw [k1]; push_cast at hhi; omega)
      omega

/-- Unfolding `twoEmpty` on a first batch. -/
theorem twoEmpty_cons (last : Nat) (b : List Message) (bs : List (List Message))
    (h : twoEmpty last (b :: bs) = false) :
    (last ≠ 0 ∨ b ≠ []) ∧ twoEmpty b.length bs = false := by
  simp only [twoEmpty, Bool.or_eq_false_iff, Bool.and_eq_false_iff, beq_eq_false_iff_ne, ne_eq,
    List.length_eq_zero] at h
  exact h

/-- One pass of the loop over a batch in which every body matches and every call
succeeds, under any interleaving: `S` messages are sent, counted and deleted,
and either the limit is reached afterwards or `S` is the whole batch. -/
theorem processBatch_bounds (w : Worker) (hall : ∀ s, w.includeRegex s = true)
    (b : List Message) (sched : List Nat) (sh : Shared)
    (hlo : -9223372036854775808 ≤ sh.messagesMoved)
    (hhi : sh.messagesMoved + b.length < 9223372036854775808) :
    ∃ S : Nat,
      (processBatch w { resp := .ok b, sched := sched, answers := allOk } b
          (sh.emit (.receive w.rmin))).messagesMoved = sh.messagesMoved + S ∧
      (sentInputs (processBatch w { resp := .ok b, sched := sched, answers := allOk } b
          (sh.emit (.receive w.rmin))).trace).length = (sentInputs sh.trace).length + S ∧
      (deletedInputs (processBatch w { resp := .ok b, sched := sched, answers := allOk } b
          (sh.emit (.receive w.rmin))).trace).length = (deletedInputs sh.trace).length + S ∧
      S ≤ b.length ∧
      (limitReached w.limit (processBatch w { resp := .ok b, sched := sched, answers := allOk } b
          (sh.emit (.receive w.rmin))).messagesMoved = true ∨ S = b.length) := by
  obtain ⟨t1, t2, t3, t4⟩ := runBatch_bounds w allOk hall (fun _ => rfl) (fun _ => rfl) sched b
    sh.messagesMoved hlo hhi
  refine ⟨(sentInputs (runBatch w allOk sched b sh.messagesMoved).2.trace).length, ?_, ?_, ?_, t3, ?_⟩
  · simpa [processBatch, Shared.emit] using t1
  · simp [processBatch, Shared.emit, sentInputs_append, sentInputs]
  · simp [processBatch, Shared.emit, deletedInputs_append, deletedInputs, t2]
  · simpa [processBatch, Shared.emit] using t4

/-- The loop over rounds in which every body matches and every call succeeds,
under any interleaving, followed by one more successful fetch: the worker
returns with the limit reached, the counter is the number of sends, and every
message sent is deleted. -/
theorem transferLoop_bounds (w : Worker) (hall : ∀ s, w.includeRegex s = true)
    (h0 : 0 ≤ w.limit) (h1 : w.limit < 9223372036854775808)
    (extra : Round) (msgs1 : List Message) (hextra : extra.resp = .ok msgs1) (M : Nat)
    (batches : List (List Message × List Nat)) :
    ∀ (last : Nat) (sh : Shared),
      twoEmpty last (batches.map Prod.fst) = false →
      0 ≤ sh.messagesMoved →
      sh.messagesMoved = (sentInputs sh.trace).length →
      (deletedInputs sh.trace).length = (sentInputs sh.trace).length →
      w.limit ≤ sh.messagesMoved + (batches.map Prod.fst).flatten.length →
      (∀ p ∈ batches, w.limit + p.1.length < 9223372036854775808) →
      (∀ p ∈ batches, p.1.length ≤ M) → sh.messagesMoved < w.limit + M →
      (transferLoop w (okRounds batches ++ [extra]) last sh).1 = .done ∧
      (transferLoop w (okRounds batches ++ [extra]) last sh).2.messagesMoved =
        (sentInputs (transferLoop w (okRounds batches ++ [extra]) last sh).2.trace).length ∧
      (deletedInputs (transferLoop w (okRounds batches ++ [extra]) last sh).2.trace).length =
        (sentInputs (transferLoop w (okRounds batches ++ [extra]) last sh).2.trace).length ∧
      w.limit ≤ (transferLoop w (okRounds batches ++ [extra]) last sh).2.messagesMoved ∧
      (transferLoop w (okRounds batches ++ [extra]) last sh).2.messagesMoved < w.limit + M := by
  induction batches with
  | nil =>
    intro last sh _ hc hsent hdel hn _ _ hM
    have hl : limitReached w.limit sh.messagesMoved = true :=
      (limitReached_iff _ _ h0 h1).mpr (by simpa using hn)
    simp only [okRounds, List.map_nil, List.nil_append]
    rw [transferLoop_limit w extra [] last sh msgs1 hextra hl]
    simp only [Shared.emit, List.append_assoc, sentInputs_append, deletedInputs_append,
      List.length_append]
    simp only [sentInputs, deletedInputs, List.length_nil, add_zero]
    exact ⟨trivial, hsent, hdel, by simpa using hn, hM⟩
  | cons p bs ih =>
    intro last sh hte hc hsent hdel hn hov hcap hM
    simp only [okRounds, List.map_cons, List.cons_append]
    by_cases hl : limitReached w.limit sh.messagesMoved = true
    · rw [transferLoop_limit w _ _ last sh p.1 rfl hl]
      simp only [Shared.emit, List.append_assoc, sentInputs_append, deletedInputs_append,
        List.length_append]
      simp only [sentInputs, deletedInputs, List.length_nil, add_zero]
      exact ⟨trivial, hsent, hdel, (limitReached_iff _ _ h0 h1).mp hl, hM⟩
    · simp only [Bool.not_eq_true] at hl
      have hlt : sh.messagesMoved < w.limit := by
        by_contra hge
        have := (limitReached_iff _ _ h0 h1).mpr (not_lt.mp hge)
        rw [hl] at this
        exact absurd this (by decide)
      obtain ⟨hgo, hte2⟩ := twoEmpty_cons last p.1 _ (by simpa using hte)
      rw [transferLoop_go w _ _ last sh p.1 rfl hl hgo]
      have hovp := hov p (by simp)
      have hcapp := hcap p (by simp)
      obtain ⟨S, s1, s2, s3, s4, s5⟩ := processBatch_bounds w hall p.1 p.2 sh (by omega) (by omega)
      simp only [List.map_cons, List.flatten_cons, List.length_append] at hn
      have := ih p.1.length
        (processBatch w { resp := .ok p.1, sched := p.2, answers := allOk } p.1
          (sh.emit (.receive w.rmin)))
        hte2 (by rw [s1]; omega) (by rw [s1, s2, hsent]; push_cast; ring)
        (by rw [s2, s3, hdel])
        (by
          rcases s5 with s5 | s5
          · have := (limitReached_iff _ _ h0 h1).mp s5
            omega
          · rw [s1, s5]; push_cast at hn ⊢; omega)
        (fun q hq => hov q (by simp [hq])) (fun q hq => hcap q (by simp [hq]))
        (by rw [s1]; have : (S : Int) ≤ M := by exact_mod_cast (by omega : S ≤ M)
            omega)
      simpa [okRounds] using this

/-- One pass of the loop over a batch whose goroutines run one after another,
every body matching and every call succeeding, with `d` messages left before the
limit. -/
theorem processBatch_serial (w : Worker) (hall : ∀ s, w.includeRegex s = true)
    (h0 : 0 ≤ w.limit) (h1 : w.limit < 9223372036854775808) (msgs : List Message)
    (d : Nat) (sh : Shared) (hc : 0 ≤ sh.messagesMoved) (hlim : sh.messagesMoved + d = w.limit) :
    (processBatch w { resp := .ok msgs, sched := [], answers := allOk } msgs
        (sh.emit (.receive w.rmin))).messagesMoved =
        sh.messagesMoved + (min d msgs.length : Nat) ∧
      sentInputs (processBatch w { resp := .ok msgs, sched := [], answers := allOk } msgs
          (sh.emit (.receive w.rmin))).trace =
        sentInputs sh.trace ++ (msgs.take d).map (sendInput w) ∧
      deletedInputs (processBatch w { resp := .ok msgs, sched := [], answers := allOk } msgs
          (sh.emit (.receive w.rmin))).trace =
        deletedInputs sh.trace ++ (msgs.take d).map (deleteInput w) := by
  have := drain_serial w allOk hall (fun _ => rfl) (fun _ => rfl) h0 h1 msgs 0 d
    { messagesMoved := sh.messagesMoved, trace := [] } hc hlim
  simp only [processBatch, runBatch, runSchedule, Shared.emit]
  obtain ⟨t1, t2, t3⟩ := this
  refine ⟨t1, ?_, ?_⟩
  · rw [sentInputs_append, t2]
    simp [sentInputs_append, sentInputs]
  · rw [deletedInputs_append, t3]
    simp [deletedInputs_append, deletedInputs]

/-- The loop over rounds whose goroutines run one after another, with `d`
messages left before the limit and at least `d` messages to come, followed by
one more successful fetch: exactly the next `d` messages are sent and deleted. -/
theorem transferLoop_serial (w : Worker) (hall : ∀ s, w.includeRegex s = true)
    (h0 : 0 ≤ w.limit) (h1 : w.limit < 9223372036854775808)
    (extra : Round) (msgs1 : List Message) (hextra : extra.resp = .ok msgs1)
    (batches : List (List Message × List Nat)) :
    ∀ (last d : Nat) (sh : Shared), (∀ p ∈ batches, p.2 = []) →
      twoEmpty last (batches.map Prod.fst) = false → 0 ≤ sh.messagesMoved →
      sh.messagesMoved + d = w.limit → d ≤ (batches.map Prod.fst).flatten.length →
      (transferLoop w (okRounds batches ++ [extra]) last sh).2.messagesMoved = w.limit ∧
      sentInputs (transferLoop w (okRounds batches ++ [extra]) last sh).2.trace =
        sentInputs sh.trace ++ ((batches.map Prod.fst).flatten.take d).map (sendInput w) ∧
      deletedInputs (transferLoop w (okRounds batches ++ [extra]) last sh).2.trace =
        deletedInputs sh.trace ++ ((batches.map Prod.fst).flatten.take d).map (deleteInput w) := by
  induction batches with
  | nil =>
    intro last d sh _ _ hc hlim hd
    simp only [List.map_nil, List.flatten_nil, List.length_nil, Nat.le_zero_eq] at hd
    subst hd
    have hl : limitReached w.limit sh.messagesMoved = true :=
      (limitReached_iff _ _ h0 h1).mpr (by simp at hlim; omega)
    simp only [okRounds, List.map_nil, List.nil_append]
    rw [transferLoop_limit w extra [] last sh msgs1 hextra hl]
    simp at hlim
    simp [Shared.emit, sentInputs_append, deletedInputs_append, sentInputs, deletedInputs, hlim]
  | cons p bs ih =>
    intro last d sh hser hte hc hlim hd
    obtain ⟨b, sched⟩ := p
    have hs : sched = [] := hser (b, sched) (by simp)
    subst hs
    simp only [okRounds, List.map_cons, List.cons_append]
    cases d with
    | zero =>
      have hl : limitReached w.limit sh.messagesMoved = true :=
        (limitReached_iff _ _ h0 h1).mpr (by simp at hlim; omega)
      rw [transferLoop_limit w _ _ last sh b rfl hl]
      simp at hlim
      simp [Shared.emit, sentInputs_append, deletedInputs_append, sentInputs, deletedInputs,
        hlim]
    | succ d =>
      have hl : limitReached w.limit sh.messagesMoved = false := by
        rw [← Bool.not_eq_true, limitReached_iff _ _ h0 h1]
        push_cast at hlim
        omega
      obtain ⟨hgo, hte2⟩ := twoEmpty_cons last b _ (by simpa using hte)
      rw [transferLoop_go w _ _ last sh b rfl hl hgo]
      obtain ⟨p1, p2, p3⟩ := processBatch_serial w hall h0 h1 b (d + 1) sh hc hlim
      simp only [List.map_cons, List.flatten_cons, List.length_append] at hd ⊢
      have := ih b.length (d + 1 - min (d + 1) b.length)
        (processBatch w { resp := .ok b, sched := [], answers := allOk } b
          (sh.emit (.receive w.rmin)))
        (fun q hq => hser q (by simp [hq])) hte2
        (by rw [p1]; omega)
        (by rw [p1]; push_cast at hlim ⊢; omega)
        (by omega)
      simp only [okRounds] at this
      obtain ⟨q2, q3, q4⟩ := this
      have hmin : d + 1 - min (d + 1) b.length = d + 1 - b.length := by omega
      rw [hmin] at q3 q4
      refine ⟨q2, ?_, ?_⟩
      · rw [q3, p2, List.take_append_eq_append_take, List.map_append, List.append_assoc]
      · rw [q4, p3, List.take_append_eq_append_take, List.map_append, List.append_assoc]

/-- One pass of the loop over a batch in which every body matches and every call
succeeds, under any interleaving: some of the messages of the batch, each taken
once, are sent, counted and deleted, and either the limit is reached afterwards
or they are the whole batch. -/
theorem processBatch_moved (w : Worker) (hall : ∀ s, w.includeRegex s = true)
    (b : List Message) (sched : List Nat) (sh : Shared)
    (hlo : -9223372036854775808 ≤ sh.messagesMoved)
    (hhi : sh.messagesMoved + b.length < 9223372036854775808) :
    ∃ ms : List Message, ms.Sublist b ∧
      (processBatch w { resp := .ok b, sched := sched, answers := allOk } b
          (sh.emit (.receive w.rmin))).messagesMoved = sh.messagesMoved + ms.length ∧
      (sentInputs (processBatch w { resp := .ok b, sched := sched, answers := allOk } b
          (sh.emit (.receive w.rmin))).trace).Perm
        (sentInputs sh.trace ++ ms.map (sendInput w)) ∧
      (deletedInputs (processBatch w { resp := .ok b, sched := sched, answers := allOk } b
          (sh.emit (.receive w.rmin))).trace).Perm
        (deletedInputs sh.trace ++ ms.map (deleteInput w)) ∧
      (limitReached w.limit (processBatch w { resp := .ok b, sched := sched, answers := allOk } b
          (sh.emit (.receive w.rmin))).messagesMoved = true ∨ ms.length = b.length) := by
  obtain ⟨t1, _, _, t4⟩ := runBatch_bounds w allOk hall (fun _ => rfl) (fun _ => rfl) sched b
    sh.messagesMoved hlo hhi
  obtain ⟨ms, m1, m2, m3⟩ := runBatch_moved w allOk (fun _ => rfl) (fun _ => rfl) sched b
    sh.messagesMoved
  have hlen : (sentInputs (runBatch w allOk sched b sh.messagesMoved).2.trace).length =
      ms.length := by
    rw [m2.length_eq, List.length_map]
  rw [hlen] at t1 t4
  refine ⟨ms, m1, ?_, ?_, ?_, ?_⟩
  · simpa [processBatch, Shared.emit] using t1
  · simp only [processBatch, Shared.emit, sentInputs_append, List.append_assoc]
    simp only [sentInputs, List.nil_append]
    exact List.Perm.append_left _ m2
  · simp only [processBatch, Shared.emit, deletedInputs_append, List.append_assoc]
    simp only [deletedInputs, List.nil_append]
    exact List.Perm.append_left _ m3
  · simpa [processBatch, Shared.emit] using t4

/-- The loop over rounds in which every body matches and every call succeeds,
under any interleaving, followed by one more successful fetch: the messages
sent and the messages deleted are, up to the order, some of the messages
fetched, each taken once, and the counter grows by their number. -/
theorem transferLoop_moved (w : Worker) (hall : ∀ s, w.includeRegex s = true)
    (h0 : 0 ≤ w.limit) (h1 : w.limit < 9223372036854775808)
    (extra : Round) (msgs1 : List Message) (hextra : extra.resp = .ok msgs1)
    (batches : List (List Message × List Nat)) :
    ∀ (last : Nat) (sh : Shared),
      twoEmpty last (batches.map Prod.fst) = false →
      0 ≤ sh.messagesMoved →
      w.limit ≤ sh.messagesMoved + (batches.map Prod.fst).flatten.length →
      (∀ p ∈ batches, w.limit + p.1.length < 9223372036854775808) →
      ∃ ms : List Message, ms.Sublist (batches.map Prod.fst).flatten ∧
        (transferLoop w (okRounds batches ++ [extra]) last sh).2.messagesMoved =
          sh.messagesMoved + ms.length ∧
        (sentInputs (transferLoop w (okRounds batches ++ [extra]) last sh).2.trace).Perm
          (sentInputs sh.trace ++ ms.map (sendInput w)) ∧
        (deletedInputs (transferLoop w (okRounds batches ++ [extra]) last sh).2.trace).Perm
          (deletedInputs sh.trace ++ ms.map (deleteInput w)) := by
  induction batches with
  | nil =>
    intro last sh _ hc hn _
    have hl : limitReached w.limit sh.messagesMoved = true :=
      (limitReached_iff _ _ h0 h1).mpr (by simpa using hn)
    simp only [okRounds, List.map_nil, List.nil_append]
    rw [transferLoop_limit w extra [] last sh msgs1 hextra hl]
    refine ⟨[], List.nil_sublist _, by simp [Shared.emit], ?_, ?_⟩
    · simp [Shared.emit, sentInputs_append, sentInputs]
    · simp [Shared.emit, deletedInputs_append, deletedInputs]
  | cons p bs ih =>
    intro last sh hte hc hn hov
    simp only [okRounds, List.map_cons, List.cons_append]
    by_cases hl : limitReached w.limit sh.messagesMoved = true
    · rw [transferLoop_limit w _ _ last sh p.1 rfl hl]
      refine ⟨[], List.nil_sublist _, by simp [Shared.emit], ?_, ?_⟩
      · simp [Shared.emit, sentInputs_append, sentInputs]
      · simp [Shared.emit, deletedInputs_append, deletedInputs]
    · simp only [Bool.not_eq_true] at hl
      have hlt : sh.messagesMoved < w.limit := by
        by_contra hge
        have := (limitReached_iff _ _ h0 h1).mpr (not_lt.mp hge)
        rw [hl] at this
        exact absurd this (by decide)
      obtain ⟨hgo, hte2⟩ := twoEmpty_cons last p.1 _ (by simpa using hte)
      rw [transferLoop_go w _ _ last sh p.1 rfl hl hgo]
      have hovp := hov p (by simp)
      obtain ⟨ms, s0, s1, s2, s3, s5⟩ := processBatch_moved w hall p.1 p.2 sh (by omega) (by omega)
      simp only [List.map_cons, List.flatten_cons, List.length_append] at hn ⊢
      obtain ⟨ms2, r0, r1, r2, r3⟩ := ih p.1.length
        (processBatch w { resp := .ok p.1, sched := p.2, answers := allOk } p.1
          (sh.emit (.receive w.rmin)))
        hte2 (by rw [s1]; omega)
        (by
          rcases s5 with s5 | s5
          · have := (limitReached_iff _ _ h0 h1).mp s5
            omega
          · rw [s1, s5]; push_cast at hn ⊢; omega)
        (fun q hq => hov q (by simp [hq]))
      simp only [okRounds] at r1 r2 r3
      refine ⟨ms ++ ms2, List.Sublist.append s0 r0, ?_, ?_, ?_⟩
      · rw [r1, s1, List.length_append]; push_cast; ring
      · refine r2.trans ?_
        rw [List.map_append, ← List.append_assoc]
        exact List.Perm.append_right _ s2
      · refine r3.trans ?_
        rw [List.map_append, ← List.append_assoc]
        exact List.Perm.append_right _ s3

/-- The loop over rounds whose goroutines run one after another, in any order,
every body matching and every call succeeding, followed by one more successful
fetch, does not take the counter past the limit. -/
theorem transferLoop_serial_le (w : Worker) (hall : ∀ s, w.includeRegex s = true)
    (h0 : 0 ≤ w.limit) (h1 : w.limit < 9223372036854775808)
    (extra : Round) (msgs1 : List Message) (hextra : extra.resp = .ok msgs1)
    (batches : List (List Message × List Nat)) :
    ∀ (last : Nat) (sh : Shared),
      (∀ p ∈ batches, ∃ order, p.2 = serialSchedule order) →
      twoEmpty last (batches.map Prod.fst) = false →
      0 ≤ sh.messagesMoved → sh.messagesMoved ≤ w.limit →
      w.limit ≤ sh.messagesMoved + (batches.map Prod.fst).flatten.length →
      (∀ p ∈ batches, w.limit + p.1.length < 9223372036854775808) →
      (transferLoop w (okRounds batches ++ [extra]) last sh).2.messagesMoved ≤ w.limit := by
  induction batches with
  | nil =>
    intro last sh _ _ hc hL hn _
    have hl : limitReached w.limit sh.messagesMoved = true :=
      (limitReached_iff _ _ h0 h1).mpr (by simpa using hn)
    simp only [okRounds, List.map_nil, List.nil_append]
    rw [transferLoop_limit w extra [] last sh msgs1 hextra hl]
    simpa [Shared.emit] using hL
  | cons p bs ih =>
    intro last sh hser hte hc hL hn hov
    simp only [okRounds, List.map_cons, List.cons_append]
    by_cases hl : limitReached w.limit sh.messagesMoved = true
    · rw [transferLoop_limit w _ _ last sh p.1 rfl hl]
      simpa [Shared.emit] using hL
    · simp only [Bool.not_eq_true] at hl
      obtain ⟨hgo, hte2⟩ := twoEmpty_cons last p.1 _ (by simpa using hte)
      rw [transferLoop_go w _ _ last sh p.1 rfl hl hgo]
      obtain ⟨order, hord⟩ := hser p (by simp)
      have hovp := hov p (by simp)
      have hle := runBatch_serial_le w allOk hall (fun _ => rfl) (fun _ => rfl) h0 h1 order p.1
        sh.messagesMoved hc hL
      have hP : (processBatch w { resp := .ok p.1, sched := p.2, answers := allOk } p.1
          (sh.emit (.receive w.rmin))).messagesMoved =
          (runBatch w allOk (serialSchedule order) p.1 sh.messagesMoved).2.messagesMoved := by
        simp [processBatch, Shared.emit, hord]
      obtain ⟨S, s1, _, _, s4, s5⟩ := processBatch_bounds w hall p.1 p.2 sh (by omega) (by omega)
      simp only [List.map_cons, List.flatten_cons, List.length_append] at hn
      exact ih p.1.length
        (processBatch w { resp := .ok p.1, sched := p.2, answers := allOk } p.1
          (sh.emit (.receive w.rmin)))
        (fun q hq => hser q (by simp [hq])) hte2 (by rw [s1]; omega) (by rw [hP]; exact hle)
        (by
          rcases s5 with s5 | s5
          · have := (limitReached_iff _ _ h0 h1).mp s5
            omega
          · rw [s1, s5]; push_cast at hn ⊢; omega)
        (fun q hq => hov q (by simp [hq]))

/-! ## The wait group of `main` -/

/-- The launch loop from loop variable `i` on: `n` more workers are started and
the wait group grows by `i + (i+1) + ... + (i+n-1)`. -/
theorem launch_from (n : Nat) :
    ∀ (i : Nat) (c : Int) (s : Nat), 0 ≤ c →
      (List.range' i n).foldl launchBody (some { wg := { counter := c }, started := s }) =
        some { wg := { counter := c + (n * i + n * (n - 1) / 2 : Nat) }, started := s + n } := by
  induction n with
  | zero => intro i c s _; simp
  | succ n ih =>
    intro i c s hc
    have hadd : WaitGroup.add { counter := c } (i : Int) = some { counter := c + i } := by
      simp only [WaitGroup.add]
      rw [if_neg (by omega)]
    rw [List.range'_succ, List.foldl_cons]
    simp only [launchBody, hadd]
    rw [ih (i + 1) (c + i) (s + 1) (by omega)]
    have hsum : (n + 1) * i + (n + 1) * (n + 1 - 1) / 2 = i + (n * (i + 1) + n * (n - 1) / 2) := by
      have h2 : (n + 1) * (n + 1 - 1) = n * (n - 1) + 2 * n := by
        cases n with
        | zero => rfl
        | succ k => simp only [Nat.add_sub_cancel]; ring
      rw [h2, Nat.add_mul_div_left _ _ (by decide : 0 < 2)]
      ring
    rw [hsum]
    simp only [Launch.mk.injEq, WaitGroup.mk.injEq, Option.some.injEq]
    constructor
    · push_cast; ring
    · omega

/-- The launch loop of `main` starts `clients` workers and registers
`1 + 2 + ... + clients` on the wait group. -/
theorem launchWorkers_eq (clients : Nat) :
    launchWorkers clients =
      some { wg := { counter := ((clients + clients * (clients - 1) / 2 : Nat) : Int) },
             started := clients } := by
  unfold launchWorkers
  rw [Int.toNat_ofNat, launch_from clients 1 0 0 (le_refl _)]
  simp

/-- `n` workers returning take `n` off the wait group. -/
theorem workersReturn_eq (n : Nat) :
    ∀ (c : Int), (n : Int) ≤ c → workersReturn n { counter := c } = some { counter := c - n } := by
  induction n with
  | zero => intro c _; simp [workersReturn]
  | succ n ih =>
    intro c hc
    have hdone : WaitGroup.done { counter := c } = some { counter := c - 1 } := by
      simp only [WaitGroup.done, WaitGroup.add]
      rw [if_neg (by push_cast at hc; omega)]
      rfl
    simp only [workersReturn, hdone]
    rw [ih (c - 1) (by push_cast at hc; omega)]
    simp only [Option.some.injEq, WaitGroup.mk.injEq]
    push_cast
    ring

/-- After all `clients` workers have returned the wait group of `main` holds
`1 + 2 + ... + (clients - 1)`. -/
theorem waitGroupAfterRun_eq (clients : Nat) :
    waitGroupAfterRun clients =
      some { counter := ((clients * (clients - 1) / 2 : Nat) : Int) } := by
  unfold waitGroupAfterRun
  rw [launchWorkers_eq]
  simp only
  rw [workersReturn_eq clients _ (by exact_mod_cast Nat.le_add_right _ _)]
  simp only [Option.some.injEq, WaitGroup.mk.injEq]
  push_cast
  ring

/-- For every number of clients, `wg.Wait()` of `main` returns after all workers
returned only when there is a single client. -/
theorem wait_released_iff_one_client (clients : Nat) (moved : Int) (h : 1 ≤ clients) :
    (finalReport clients moved).isSome = true ↔ clients = 1 := by
  unfold finalReport
  rw [waitGroupAfterRun_eq]
  simp only [WaitGroup.waitReturns]
  constructor
  · intro hsome
    by_contra hne
    have h2 : 2 ≤ clients := by omega
    have h3 : 1 ≤ clients * (clients - 1) / 2 := by
      rw [Nat.le_div_iff_mul_le (by decide : 0 < 2)]
      have : 1 ≤ clients - 1 := by omega
      nlinarith
    have h5 : (((clients * (clients - 1) / 2 : Nat)) : Int) ≠ 0 := by
      exact_mod_cast (by omega : clients * (clients - 1) / 2 ≠ 0)
    push_cast at h5
    simp at hsome
    exact h5 hsome
  · intro h1
    subst h1
    simp

/-- With one client `wg.Wait()` returns once the worker has returned and `main`
logs the final value of the counter. -/
theorem finalReport_one_client (moved : Int) :
    finalReport 1 moved = some ("all done, moved " ++ toString moved ++ " messages") := by
  have h : waitGroupAfterRun 1 = some { counter := 0 } := by decide
  simp [finalReport, h, WaitGroup.waitReturns]

/-! # The claims -/

/-- C1 (the code differs): with 2 clients the launch loop starts 2 workers but
registers 1 + 2 = 3 on the outer wait group; once both workers have signalled
`Done` the counter is 1, not 0, so `wg.Wait()` never returns and the final total
is never reported.  With 1 client the count and the number of workers agree. -/
theorem two_clients_wait_never_released :
    launchWorkers 2 = some { wg := { counter := 3 }, started := 2 } ∧
    waitGroupAfterRun 2 = some { counter := 1 } ∧
    (∀ moved : Int, finalReport 2 moved = none) ∧
    waitGroupAfterRun 1 = some { counter := 0 } := by
  refine ⟨by decide, by decide, ?_, by decide⟩
  intro moved
  have h : waitGroupAfterRun 2 = some { counter := 1 } := by decide
  simp [finalReport, h, WaitGroup.waitReturns]

/-- C2: without limit and without fetch error, a worker that is still running
after the fetches of `pre` stops at its next fetch if and only if that fetch and
the one before it both returned no message; once stopped, whatever further
rounds the world holds change nothing (it fetches no more: the trace counts one
fetch per round up to the stop); and a first fetch never stops it, empty or
not. -/
theorem worker_stops_iff_two_empty_fetches (w : Worker) (pre : List Round) (r : Round)
    (msgs : List Message) (sh sh1 : Shared) (l : Nat)
    (hlim : w.limit = -1)
    (hpre : transferMessages w pre sh = (.running l, sh1))
    (hr : r.resp = .ok msgs) :
    ((transferMessages w (pre ++ [r]) sh).1 = .done ↔
      (msgs = [] ∧ ∃ p, pre.getLast? = some p ∧ p.resp = .ok [])) ∧
    ((transferMessages w (pre ++ [r]) sh).1 = .done →
      (∀ rest, transferMessages w (pre ++ [r] ++ rest) sh = transferMessages w (pre ++ [r]) sh) ∧
        fetchCount (transferMessages w (pre ++ [r]) sh).2.trace =
          fetchCount sh.trace + (pre.length + 1)) ∧
    (transferMessages w [r] sh).1 ≠ .done := by
  unfold transferMessages at *
  have hl : ∀ c, limitReached w.limit c = false := by
    intro c; rw [hlim]; exact limitReached_none c
  have hstep : (transferLoop w (pre ++ [r]) 1 sh).1 = .done ↔ (l = 0 ∧ msgs = []) := by
    rw [transferLoop_append_running w pre [r] 1 l sh sh1 hpre]
    by_cases he : l = 0 ∧ msgs = []
    · obtain ⟨h1, h2⟩ := he
      subst h1; subst h2
      simp [transferLoop_empty w r [] sh1 hr]
    · have he2 : l ≠ 0 ∨ msgs ≠ [] := by
        by_cases h0 : l = 0
        · right; intro hm; exact he ⟨h0, hm⟩
        · left; exact h0
      rw [transferLoop_go w r [] l sh1 msgs hr (hl _) he2]
      simp [transferLoop_nil, he]
  have hlast : l = 0 ↔ ∃ p, pre.getLast? = some p ∧ p.resp = .ok [] := by
    rcases transferLoop_running_last w pre 1 l sh sh1 hpre with ⟨h1, h2⟩ | ⟨pre1, r1, m1, h1, h2, h3⟩
    · subst h1; subst h2; simp
    · subst h1; subst h3
      simp [List.getLast?_concat, h2]
  refine ⟨?_, ?_, ?_⟩
  · rw [hstep, hlast]; exact and_comm
  · intro hdone
    refine ⟨fun rest => transferLoop_append_done w (pre ++ [r]) rest 1 sh hdone, ?_⟩
    have hd := hstep.mp hdone
    obtain ⟨h1, h2⟩ := hd
    subst h1; subst h2
    rw [transferLoop_append_running w pre [r] 1 0 sh sh1 hpre, transferLoop_empty w r [] sh1 hr]
    have := transferLoop_running_fetchCount w pre 1 0 sh sh1 hpre
    simp [Shared.emit, fetchCount_append, fetchCount, this]
    omega
  · have he2 : (1 : Nat) ≠ 0 ∨ msgs ≠ [] := Or.inl (by decide)
    rw [transferLoop_go w r [] 1 sh msgs hr (hl _) he2]
    simp [transferLoop_nil]

/-- C2, at a run of three fetches: a batch, an empty fetch, an empty fetch. -/
theorem worker_stops_iff_two_empty_fetches_witness :
    (transferMessages keepWorker
        ([{ resp := .ok keepBatch, sched := [1, 0], answers := allOk },
          { resp := .ok [], sched := [], answers := allOk }] ++
          [{ resp := .ok [], sched := [], answers := allOk }])
        { messagesMoved := 0, trace := [] }).1 = .done ↔
      (([] : List Message) = [] ∧
        ∃ p, ([{ resp := .ok keepBatch, sched := [1, 0], answers := allOk },
            { resp := .ok [], sched := [], answers := allOk }] : List Round).getLast? = some p ∧
          p.resp = .ok []) :=
  (worker_stops_iff_two_empty_fetches keepWorker
    [{ resp := .ok keepBatch, sched := [1, 0], answers := allOk },
      { resp := .ok [], sched := [], answers := allOk }]
    { resp := .ok [], sched := [], answers := allOk } []
    { messagesMoved := 0, trace := [] }
    (transferMessages keepWorker
      [{ resp := .ok keepBatch, sched := [1, 0], answers := allOk },
        { resp := .ok [], sched := [], answers := allOk }]
      { messagesMoved := 0, trace := [] }).2 0 rfl (by decide) rfl).1

/-- C3: a fetched message whose body does not match the pattern causes no event,
whatever the interleaving of the batch, the answers of the queues, the limit and
the counter: no send to the destination, no delete on the source, no increment
of the counter; and a batch made of such a message alone leaves the counter and
the trace as they were. -/
theorem filtered_out_message_untouched (w : Worker) (a : Answers) (sched : List Nat)
    (msgs : List Message) (moved : Int) (i : Nat) (m : Message)
    (h : msgs[i]? = some m) (hno : w.includeRegex m.body = false) :
    byIssuer i (runBatch w a sched msgs moved).2.trace = [] ∧
    (∀ smi, Event.send i smi ∉ (runBatch w a sched msgs moved).2.trace) ∧
    (∀ dmi, Event.delete i dmi ∉ (runBatch w a sched msgs moved).2.trace) ∧
    Event.add i ∉ (runBatch w a sched msgs moved).2.trace ∧
    (runBatch w a sched [m] moved).2 = { messagesMoved := moved, trace := [] } := by
  have hfin := runBatch_finished w a sched msgs moved i m h
  have hnil := (finished_cases w a i m _ hfin).1 hno
  refine ⟨hnil, ?_, ?_, ?_, ?_⟩
  · intro smi; rw [send_mem_iff, hnil]; simp
  · intro dmi; rw [delete_mem_iff, hnil]; simp
  · rw [add_mem_iff, hnil]; simp
  · exact runBatch_all_filtered w a sched [m] moved (by simpa using hno)

/-- C3, at the filter scenario: message 1, `skip-2`, does not match. -/
theorem filtered_out_message_untouched_witness :
    byIssuer 1 (runBatch keepWorker allOk [0, 1, 2, 2, 1, 0] keepBatch 0).2.trace = [] :=
  (filtered_out_message_untouched keepWorker allOk [0, 1, 2, 2, 1, 0] keepBatch 0 1
    (msg "skip-2" "r2") rfl (by decide)).1

/-- C4: whatever the interleaving of the batch, the goroutine of a message
increments the counter exactly once if its send was issued and succeeded, and
not at all otherwise (filtered out, limit reached, send failed); the counter
after the batch is its value before plus the number of successful sends; it is
the same whatever the deletes answer.  No step of the program decreases or
resets the counter: not a step of a goroutine, not a batch at any point of its
schedule up to the join, not a pass of the loop of `transferMessages`, which
hands the counter of one batch to the next, and not the loop over any number of
rounds, which changes the counter only by the increments it records.  The
counter is a 64 bit integer: the totals are stated for batches and rounds that
cannot overflow it. -/
theorem counter_counts_successful_sends (w : Worker) (a : Answers) (sched : List Nat)
    (msgs : List Message) (moved : Int) (i : Nat) (m : Message) (h : msgs[i]? = some m)
    (hlo : -9223372036854775808 ≤ moved)
    (hhi : moved + msgs.length < 9223372036854775808) :
    (addCount (byIssuer i (runBatch w a sched msgs moved).2.trace) =
      if Event.send i (sendInput w m) ∈ (runBatch w a sched msgs moved).2.trace ∧
        a.sendErr i = none then 1 else 0) ∧
    (runBatch w a sched msgs moved).2.messagesMoved =
      moved + succSends a (runBatch w a sched msgs moved).2.trace ∧
    (∀ deleteErr : Nat → Option String,
      (runBatch w { sendErr := a.sendErr, deleteErr := deleteErr } sched msgs moved).2.messagesMoved =
        (runBatch w a sched msgs moved).2.messagesMoved) ∧
    (∀ (g : Goroutine) (sh : Shared), -9223372036854775808 ≤ sh.messagesMoved →
      sh.messagesMoved < 9223372036854775807 →
      sh.messagesMoved ≤ (pipeStep w a g sh).2.messagesMoved ∧
        (pipeStep w a g sh).2.messagesMoved ≤ sh.messagesMoved + 1) ∧
    moved ≤ (runBatch w a sched msgs moved).2.messagesMoved ∧
    (∀ s1 s2 : List Nat,
      moved ≤ (runSchedule w a s1 (spawnFrom 0 msgs)
          { messagesMoved := moved, trace := [] }).2.messagesMoved ∧
      (runSchedule w a s1 (spawnFrom 0 msgs)
          { messagesMoved := moved, trace := [] }).2.messagesMoved ≤
        (runSchedule w a (s1 ++ s2) (spawnFrom 0 msgs)
          { messagesMoved := moved, trace := [] }).2.messagesMoved ∧
      (runSchedule w a (s1 ++ s2) (spawnFrom 0 msgs)
          { messagesMoved := moved, trace := [] }).2.messagesMoved ≤
        (runBatch w a (s1 ++ s2) msgs moved).2.messagesMoved) ∧
    (∀ (r : Round) (b : List Message) (sh : Shared), -9223372036854775808 ≤ sh.messagesMoved →
      sh.messagesMoved + b.length < 9223372036854775808 →
      (processBatch w r b sh).messagesMoved =
          sh.messagesMoved +
            succSends r.answers (runBatch w r.answers r.sched b sh.messagesMoved).2.trace ∧
        sh.messagesMoved ≤ (processBatch w r b sh).messagesMoved) ∧
    (∀ (pre rest : List Round) (last : Nat) (sh : Shared),
      -9223372036854775808 ≤ sh.messagesMoved →
      sh.messagesMoved + fetched (pre ++ rest) < 9223372036854775808 →
      sh.messagesMoved ≤ (transferLoop w pre last sh).2.messagesMoved ∧
        (transferLoop w pre last sh).2.messagesMoved ≤
          (transferLoop w (pre ++ rest) last sh).2.messagesMoved) ∧
    (∀ (rounds : List Round) (sh : Shared), -9223372036854775808 ≤ sh.messagesMoved →
      sh.messagesMoved + fetched rounds < 9223372036854775808 →
      sh.messagesMoved ≤ (transferMessages w rounds sh).2.messagesMoved ∧
        (transferMessages w rounds sh).2.messagesMoved + addCount sh.trace =
          sh.messagesMoved + addCount (transferMessages w rounds sh).2.trace) := by
  have hcount := runBatch_counter w a sched msgs moved
  have hexact : (runBatch w a sched msgs moved).2.messagesMoved =
      moved + succSends a (runBatch w a sched msgs moved).2.trace := by
    rw [hcount.1]
    apply bump_iterate _ _ hlo
    have := hcount.2.2
    omega
  refine ⟨?_, hexact, ?_, ?_, by omega, ?_, ?_, ?_, ?_⟩
  · have hfin := runBatch_finished w a sched msgs moved i m h
    obtain ⟨_, hfail, hok⟩ := finished_cases w a i m _ hfin
    simp only [send_mem_iff i (runBatch w a sched msgs moved).2.trace]
    cases hs : a.sendErr i with
    | some err =>
      rcases hfail err hs with ht | ht <;> rw [ht] <;>
        simp [sendFailedTrace, returned, addCount]
    | none =>
      rcases hok hs with ht | ht
      · rw [ht]; simp [addCount]
      · rw [ht]
        cases hd : a.deleteErr i <;> simp [movedTrace, returned, hd, addCount]
  · intro deleteErr
    exact (runBatch_sameButLogs w { sendErr := a.sendErr, deleteErr := deleteErr } a rfl
      sched msgs moved).1
  · intro g sh h1 h2
    rcases pipeStep_counter w a g sh with hc | ⟨_, hc⟩
    · rw [hc]; omega
    · rw [hc, bump_eq _ h1 h2]; omega
  · intro s1 s2
    exact runBatch_monotone w a s1 s2 msgs moved hlo hhi
  · intro r b sh h1 h2
    obtain ⟨c1, _, c3⟩ := runBatch_counter w r.answers r.sched b sh.messagesMoved
    have hb : (processBatch w r b sh).messagesMoved =
        sh.messagesMoved +
          succSends r.answers (runBatch w r.answers r.sched b sh.messagesMoved).2.trace := by
      simp only [processBatch, Shared.emit]
      rw [c1]
      exact bump_iterate _ _ h1 (by omega)
    exact ⟨hb, by omega⟩
  · intro pre rest last sh h1 h2
    exact transferLoop_monotone w pre rest last sh h1 h2
  · intro rounds sh h1 h2
    obtain ⟨k, k1, k2, _⟩ := transferLoop_counter w rounds 1 sh h1 h2
    unfold transferMessages
    exact ⟨by omega, by omega⟩

/-- C4, at the filter scenario with failing calls and the counter at 5. -/
theorem counter_counts_successful_sends_witness :
    (runBatch keepWorker someFail [2, 0, 2, 0] keepBatch 5).2.messagesMoved =
      5 + succSends someFail (runBatch keepWorker someFail [2, 0, 2, 0] keepBatch 5).2.trace :=
  (counter_counts_successful_sends keepWorker someFail [2, 0, 2, 0] keepBatch 5 2
    (msg "keep-3" "r3") rfl (by decide) (by decide)).2.1

/-- C5: whatever the interleaving of the batch, the goroutine of a message
issues a delete if and only if its send was issued and succeeded; the delete
names the source queue of the fetch request and the receipt handle of that very
message; when the send fails no delete is issued for the message. -/
theorem delete_iff_send_succeeded (w : Worker) (a : Answers) (sched : List Nat)
    (msgs : List Message) (moved : Int) (i : Nat) (m : Message) (h : msgs[i]? = some m) :
    ((∃ dmi, Event.delete i dmi ∈ (runBatch w a sched msgs moved).2.trace) ↔
      (Event.send i (sendInput w m) ∈ (runBatch w a sched msgs moved).2.trace ∧
        a.sendErr i = none)) ∧
    (∀ dmi, Event.delete i dmi ∈ (runBatch w a sched msgs moved).2.trace →
      dmi = { queueUrl := w.rmin.queueUrl, receiptHandle := m.receiptHandle }) ∧
    (a.sendErr i ≠ none → ∀ dmi, Event.delete i dmi ∉ (runBatch w a sched msgs moved).2.trace) ∧
    (deletedInputs (byIssuer i (runBatch w a sched msgs moved).2.trace)).length ≤ 1 := by
  have hfin := runBatch_finished w a sched msgs moved i m h
  obtain ⟨_, hfail, hok⟩ := finished_cases w a i m _ hfin
  simp only [send_mem_iff i (runBatch w a sched msgs moved).2.trace,
    delete_mem_iff i (runBatch w a sched msgs moved).2.trace]
  cases hs : a.sendErr i with
  | some err =>
    rcases hfail err hs with ht | ht <;> rw [ht] <;>
      simp [sendFailedTrace, returned, deletedInputs]
  | none =>
    rcases hok hs with ht | ht
    · rw [ht]; simp [deletedInputs]
    · rw [ht]
      cases hd : a.deleteErr i <;>
        simp [movedTrace, returned, hd, deletedInputs, deleteInput, sendInput]

/-- C5, at the filter scenario with failing calls: message 2, `keep-3`. -/
theorem delete_iff_send_succeeded_witness :
    (∃ dmi, Event.delete 2 dmi ∈ (runBatch keepWorker someFail [2, 0, 2, 0] keepBatch 0).2.trace) ↔
      (Event.send 2 (sendInput keepWorker (msg "keep-3" "r3")) ∈
          (runBatch keepWorker someFail [2, 0, 2, 0] keepBatch 0).2.trace ∧
        someFail.sendErr 2 = none) :=
  (delete_iff_send_succeeded keepWorker someFail [2, 0, 2, 0] keepBatch 0 2
    (msg "keep-3" "r3") rfl).1

/-- C6: a worker aborts if and only if a fetch it performs returns an error.  It
then aborts right after that fetch, before any send or delete for it: the trace
is the trace up to the fetch.  When the fetch succeeds and neither the limit nor
the two-empty-fetches rule stops the worker, then whatever the sends and the
deletes of the batch answer, every goroutine of the batch returns (the join) and
the worker is about to fetch again. -/
theorem worker_aborts_iff_fetch_error (w : Worker) (rounds : List Round) (sh : Shared)
    (err : String) :
    ((transferMessages w rounds sh).1 = .panicked err ↔
      ∃ pre r rest l sh1, rounds = pre ++ r :: rest ∧
        transferMessages w pre sh = (.running l, sh1) ∧ r.resp = .error err) ∧
    (∀ pre r rest l sh1, transferMessages w pre sh = (.running l, sh1) →
      r.resp = .error err →
      transferMessages w (pre ++ r :: rest) sh =
        (.panicked err, { messagesMoved := sh1.messagesMoved,
                          trace := sh1.trace ++ [.receive w.rmin] })) ∧
    (∀ pre r msgs l sh1, transferMessages w pre sh = (.running l, sh1) →
      r.resp = .ok msgs → limitReached w.limit sh1.messagesMoved = false →
      (l ≠ 0 ∨ msgs ≠ []) →
      (∀ g ∈ (runBatch w r.answers r.sched msgs sh1.messagesMoved).1, g.pc = .done) ∧
        transferMessages w (pre ++ [r]) sh =
          (.running msgs.length, processBatch w r msgs (sh1.emit (.receive w.rmin)))) := by
  unfold transferMessages
  refine ⟨transferLoop_panicked_iff w err rounds 1 sh, ?_, ?_⟩
  · intro pre r rest l sh1 h1 h2
    rw [transferLoop_append_running w pre _ 1 l sh sh1 h1, transferLoop_error w r rest l sh1 err h2]
    rfl
  · intro pre r msgs l sh1 h1 h2 h3 h4
    refine ⟨runBatch_done w r.answers r.sched msgs _, ?_⟩
    rw [transferLoop_append_running w pre _ 1 l sh sh1 h1,
      transferLoop_go w r [] l sh1 msgs h2 h3 h4, transferLoop_nil]

/-- C7: whatever the interleaving of the batch, every send issued for a message
carries the body and the message attributes of that message and names the
destination queue (it names the source queue only if that is also the
destination); a message is sent at most once. -/
theorem send_carries_message (w : Worker) (a : Answers) (sched : List Nat)
    (msgs : List Message) (moved : Int) (i : Nat) (m : Message) (h : msgs[i]? = some m) :
    (∀ smi, Event.send i smi ∈ (runBatch w a sched msgs moved).2.trace →
      smi.messageBody = m.body ∧ smi.messageAttributes = m.messageAttributes ∧
        smi.queueUrl = w.dest ∧ (smi.queueUrl = w.rmin.queueUrl → w.dest = w.rmin.queueUrl)) ∧
    (sentInputs (byIssuer i (runBatch w a sched msgs moved).2.trace)).length ≤ 1 := by
  have hfin := runBatch_finished w a sched msgs moved i m h
  obtain ⟨_, hfail, hok⟩ := finished_cases w a i m _ hfin
  simp only [send_mem_iff i (runBatch w a sched msgs moved).2.trace]
  cases hs : a.sendErr i with
  | some err =>
    rcases hfail err hs with ht | ht <;> rw [ht] <;>
      simp [sendFailedTrace, returned, sentInputs, sendInput]
  | none =>
    rcases hok hs with ht | ht
    · rw [ht]; simp [sentInputs]
    · rw [ht]
      cases hd : a.deleteErr i <;>
        simp [movedTrace, returned, hd, sentInputs, sendInput]

/-- C7, at the filter scenario with failing calls: the send of message 2, `keep-3`. -/
theorem send_carries_message_witness :
    keepBatch[2]? = some (msg "keep-3" "r3") ∧
    Event.send 2 { messageAttributes := [], messageBody := "keep-3", queueUrl := "D" } ∈
      (runBatch keepWorker someFail [2, 0, 2, 0] keepBatch 0).2.trace ∧
    (({ messageAttributes := [], messageBody := "keep-3", queueUrl := "D" } :
        SendMessageInput).messageBody = (msg "keep-3" "r3").body ∧
      ({ messageAttributes := [], messageBody := "keep-3", queueUrl := "D" } :
        SendMessageInput).messageAttributes = (msg "keep-3" "r3").messageAttributes ∧
      ({ messageAttributes := [], messageBody := "keep-3", queueUrl := "D" } :
        SendMessageInput).queueUrl = keepWorker.dest ∧
      (({ messageAttributes := [], messageBody := "keep-3", queueUrl := "D" } :
        SendMessageInput).queueUrl = keepWorker.rmin.queueUrl →
          keepWorker.dest = keepWorker.rmin.queueUrl)) :=
  ⟨rfl, by decide,
    (send_carries_message keepWorker someFail [2, 0, 2, 0] keepBatch 0 2 (msg "keep-3" "r3")
      rfl).1 _ (by decide)⟩

/-- C8: with a limit `L ≥ 0`, a pass of the loop whose fetch succeeds while the
counter is already at least `L` ends the worker, whatever the batch holds: the
trace gains the fetch and the line `done`, no send, no delete, and the counter
is left as it was.  With `L = 0` and the counter at 0 the worker never sends,
deletes or counts, whatever the world does, and it returns after its first
fetch if that fetch succeeds. -/
theorem limit_reached_stops_worker (w : Worker) (r : Round) (rest : List Round)
    (msgs : List Message) (last : Nat) (sh : Shared)
    (h0 : 0 ≤ w.limit) (h1 : w.limit < 9223372036854775808)
    (hr : r.resp = .ok msgs) (hc : w.limit ≤ sh.messagesMoved) :
    transferLoop w (r :: rest) last sh =
      (.done, { messagesMoved := sh.messagesMoved,
                trace := sh.trace ++ [.receive w.rmin, .logLine none "done"] }) ∧
    (w.limit = 0 → ∀ rounds : List Round,
      (transferMessages w rounds { messagesMoved := 0, trace := [] }).2.messagesMoved = 0 ∧
      (∀ e ∈ (transferMessages w rounds { messagesMoved := 0, trace := [] }).2.trace,
        e.isTransfer = false) ∧
      (∀ r1 rest1 msgs1, rounds = r1 :: rest1 → r1.resp = .ok msgs1 →
        (transferMessages w rounds { messagesMoved := 0, trace := [] }).1 = .done ∧
        fetchCount (transferMessages w rounds { messagesMoved := 0, trace := [] }).2.trace = 1)) := by
  constructor
  · rw [transferLoop_limit w r rest last sh msgs hr ((limitReached_iff _ _ h0 h1).mpr hc)]
    simp [Shared.emit]
  · intro hz rounds
    unfold transferMessages
    cases rounds with
    | nil => simp [transferLoop_nil]
    | cons r1 rest1 =>
      cases hr1 : r1.resp with
      | error e =>
        rw [transferLoop_error w r1 rest1 1 _ e hr1]
        simp [Shared.emit, Event.isTransfer]
        intro r2 rest2 msgs2 h2 _ h3
        rw [← h2, hr1] at h3
        simp at h3
      | ok m1 =>
        rw [transferLoop_limit w r1 rest1 1 _ m1 hr1
          ((limitReached_iff _ _ h0 h1).mpr (by simp [hz]))]
        simp [Shared.emit, Event.isTransfer, fetchCount]

/-- C8, at limit 2 with the counter at 2 and a batch of three messages. -/
theorem limit_reached_stops_worker_witness :
    transferLoop (plainWorker 2)
        ({ resp := .ok keepBatch, sched := [0, 1], answers := allOk } :: []) 3
        { messagesMoved := 2, trace := [] } =
      (.done, { messagesMoved := 2,
                trace := [] ++ [.receive (plainWorker 2).rmin, .logLine none "done"] }) :=
  (limit_reached_stops_worker (plainWorker 2)
    { resp := .ok keepBatch, sched := [0, 1], answers := allOk } [] keepBatch 3
    { messagesMoved := 2, trace := [] } (by decide) (by decide) rfl (by decide)).1

/-- C9 (the claim differs from the code): one worker, limit 2, five messages that
all match, every call succeeding.  When the five goroutines of the batch all
pass the limit check before the first of them counts its send, all five messages
are sent and deleted and the counter ends at 5, not 2. -/
theorem limit_overshoot_when_interleaved :
    (transferMessages (plainWorker 2)
        [{ resp := .ok fiveBatch, sched := racingSchedule, answers := allOk },
          { resp := .ok [], sched := [], answers := allOk }]
        { messagesMoved := 0, trace := [] }).1 = .done ∧
    (sentInputs (transferMessages (plainWorker 2)
        [{ resp := .ok fiveBatch, sched := racingSchedule, answers := allOk },
          { resp := .ok [], sched := [], answers := allOk }]
        { messagesMoved := 0, trace := [] }).2.trace).length = 5 ∧
    (deletedInputs (transferMessages (plainWorker 2)
        [{ resp := .ok fiveBatch, sched := racingSchedule, answers := allOk },
          { resp := .ok [], sched := [], answers := allOk }]
        { messagesMoved := 0, trace := [] }).2.trace).length = 5 ∧
    (transferMessages (plainWorker 2)
        [{ resp := .ok fiveBatch, sched := racingSchedule, answers := allOk },
          { resp := .ok [], sched := [], answers := allOk }]
        { messagesMoved := 0, trace := [] }).2.messagesMoved = 5 := by
  decide

/-- C9 as amended: one worker starting with the counter at 0, a limit `L ≥ 0`, a
pattern that matches every body, every send and delete succeeding, and fetches
that return at least `L` messages, never come back empty twice in a row, and
then succeed once more (no batch being so large as to overflow the 64 bit
counter).  Under every interleaving of the goroutines of each batch the worker
returns, `main` reports the counter, which is the number of messages sent,
every message sent is deleted, the count is at least `L`, and it exceeds `L` by
less than the size `M` of the largest batch; the sends and the deletes are, up
to their order, those of some of the messages fetched, each taken once: no
other message is sent or deleted.  When the goroutines of each batch run one
after another, in any order (`serialSchedule`), the count is exactly `L`.  When
they run in the order of the batch (empty schedules) the sends and deletes are
exactly those of the first `L` messages fetched. -/
theorem limit_met_exactly_when_serial (w : Worker) (batches : List (List Message × List Nat))
    (extra : Round) (msgs1 : List Message)
    (hall : ∀ s, w.includeRegex s = true)
    (h0 : 0 ≤ w.limit) (h1 : w.limit < 9223372036854775808)
    (hte : twoEmpty 1 (batches.map Prod.fst) = false)
    (hn : w.limit ≤ (batches.map Prod.fst).flatten.length)
    (hov : ∀ p ∈ batches, w.limit + p.1.length < 9223372036854775808)
    (hextra : extra.resp = .ok msgs1) :
    (transferMessages w (okRounds batches ++ [extra])
      { messagesMoved := 0, trace := [] }).1 = .done ∧
    finalReport 1 (transferMessages w (okRounds batches ++ [extra])
        { messagesMoved := 0, trace := [] }).2.messagesMoved =
      some ("all done, moved " ++ toString (transferMessages w (okRounds batches ++ [extra])
        { messagesMoved := 0, trace := [] }).2.messagesMoved ++ " messages") ∧
    (transferMessages w (okRounds batches ++ [extra])
      { messagesMoved := 0, trace := [] }).2.messagesMoved =
      (sentInputs (transferMessages w (okRounds batches ++ [extra])
        { messagesMoved := 0, trace := [] }).2.trace).length ∧
    (deletedInputs (transferMessages w (okRounds batches ++ [extra])
        { messagesMoved := 0, trace := [] }).2.trace).length =
      (sentInputs (transferMessages w (okRounds batches ++ [extra])
        { messagesMoved := 0, trace := [] }).2.trace).length ∧
    w.limit ≤ (transferMessages w (okRounds batches ++ [extra])
      { messagesMoved := 0, trace := [] }).2.messagesMoved ∧
    (∀ M : Nat, 1 ≤ M → (∀ p ∈ batches, p.1.length ≤ M) →
      (transferMessages w (okRounds batches ++ [extra])
        { messagesMoved := 0, trace := [] }).2.messagesMoved < w.limit + M) ∧
    (∃ ms : List Message, ms.Sublist (batches.map Prod.fst).flatten ∧
      (sentInputs (transferMessages w (okRounds batches ++ [extra])
        { messagesMoved := 0, trace := [] }).2.trace).Perm (ms.map (sendInput w)) ∧
      (deletedInputs (transferMessages w (okRounds batches ++ [extra])
        { messagesMoved := 0, trace := [] }).2.trace).Perm (ms.map (deleteInput w)) ∧
      (transferMessages w (okRounds batches ++ [extra])
        { messagesMoved := 0, trace := [] }).2.messagesMoved = ms.length) ∧
    ((∀ p ∈ batches, ∃ order, p.2 = serialSchedule order) →
      (transferMessages w (okRounds batches ++ [extra])
        { messagesMoved := 0, trace := [] }).2.messagesMoved = w.limit) ∧
    ((∀ p ∈ batches, p.2 = []) →
      (transferMessages w (okRounds batches ++ [extra])
        { messagesMoved := 0, trace := [] }).2.messagesMoved = w.limit ∧
      sentInputs (transferMessages w (okRounds batches ++ [extra])
          { messagesMoved := 0, trace := [] }).2.trace =
        ((batches.map Prod.fst).flatten.take w.limit.toNat).map (sendInput w) ∧
      deletedInputs (transferMessages w (okRounds batches ++ [extra])
          { messagesMoved := 0, trace := [] }).2.trace =
        ((batches.map Prod.fst).flatten.take w.limit.toNat).map (deleteInput w)) := by
  unfold transferMessages
  have hgen : ∀ M : Nat, 1 ≤ M → (∀ p ∈ batches, p.1.length ≤ M) → _ :=
    fun M hM hcap => transferLoop_bounds w hall h0 h1 extra msgs1 hextra M batches 1
      { messagesMoved := 0, trace := [] } hte (le_refl _) (by simp [sentInputs])
      (by simp [sentInputs, deletedInputs]) (by simpa using hn) hov hcap
      (by simp only; have : (1 : Int) ≤ M := by exact_mod_cast hM
          omega)
  have hbig := hgen ((batches.map Prod.fst).flatten.length + 1) (by omega) (by
    intro p hp
    have : p.1.length ≤ (batches.map Prod.fst).flatten.length := by
      rw [List.length_flatten]
      apply List.single_le_sum (by simp)
      simp only [List.mem_map]
      exact ⟨p.1, ⟨p, hp, rfl⟩, rfl⟩
    omega)
  refine ⟨hbig.1, finalReport_one_client _, hbig.2.1, hbig.2.2.1, hbig.2.2.2.1, ?_, ?_, ?_, ?_⟩
  · intro M hM hcap
    exact (hgen M hM hcap).2.2.2.2
  · obtain ⟨ms, m0, m1, m2, m3⟩ := transferLoop_moved w hall h0 h1 extra msgs1 hextra batches 1
      { messagesMoved := 0, trace := [] } hte (le_refl _) (by simpa using hn) hov
    exact ⟨ms, m0, by simpa [sentInputs] using m2, by simpa [deletedInputs] using m3,
      by simpa using m1⟩
  · intro hser
    have hle := transferLoop_serial_le w hall h0 h1 extra msgs1 hextra batches 1
      { messagesMoved := 0, trace := [] } hser hte (le_refl _) h0 (by simpa using hn) hov
    exact le_antisymm hle hbig.2.2.2.1
  · intro hser
    have := transferLoop_serial w hall h0 h1 extra msgs1 hextra batches 1 w.limit.toNat
      { messagesMoved := 0, trace := [] } hser hte (le_refl _)
      (by simp only [zero_add]; exact Int.toNat_of_nonneg h0)
      (by omega)
    simpa [sentInputs, deletedInputs] using this

/-- C9, at limit 2 with five messages in one batch whose goroutines run one after
another, message 4 first, then message 0, then the others, followed by an empty
fetch: the count is exactly 2. -/
theorem limit_met_exactly_when_serial_witness :
    (transferMessages (plainWorker 2)
      (okRounds [(fiveBatch, serialSchedule [4, 0])] ++
        [{ resp := .ok [], sched := [], answers := allOk }])
      { messagesMoved := 0, trace := [] }).2.messagesMoved = (plainWorker 2).limit :=
  (limit_met_exactly_when_serial (plainWorker 2) [(fiveBatch, serialSchedule [4, 0])]
    { resp := .ok [], sched := [], answers := allOk } [] (fun _ => rfl) (by decide) (by decide)
    (by decide) (by decide) (by decide) rfl).2.2.2.2.2.2.2.1
    (fun p hp => ⟨[4, 0], by simp only [List.mem_singleton] at hp; rw [hp]⟩)

/-- C10 (the claim differs from the code): with a nonzero limit and no include
pattern the fetch request of `main` carries no visibility timeout. -/
theorem nonzero_limit_without_pattern_no_timeout :
    (receiveInput { defaultFlags with src := "S", dest := "D", limit := 5 }).visibilityTimeout
      ≠ some 120 := by
  decide

/-- C10 as amended: the fetch request of `main` names the source queue, caps the
batch at 10, waits 0, asks for all message attributes, and carries the
visibility timeout 120 exactly when the include pattern is not empty, whatever
the limit is. -/
theorem receiveInput_fields (f : Flags) :
    (receiveInput f).queueUrl = f.src ∧
    (receiveInput f).maxNumberOfMessages = some 10 ∧
    (receiveInput f).waitTimeSeconds = some 0 ∧
    (receiveInput f).messageAttributeNames = ["All"] ∧
    (receiveInput f).visibilityTimeout = (if f.includePattern = "" then none else some 120) ∧
    (∀ limit : Int, receiveInput { f with limit := limit } = receiveInput f) := by
  unfold receiveInput
  by_cases h : f.includePattern = "" <;> simp [h]

end Sqsmv
